import Mathlib

/-!
Shallow embedding of `src/main.ts` of the github-repo-insight actor.

The program is a single orchestration script: it validates its input,
fans out five HTTP requests to the GitHub REST API, transforms the
responses, builds a prompt, calls a generative-AI endpoint once, parses
the AI response defensively and pushes one output record.

Pure computations (URL parsing, file-tree filtering, base64/UTF-8
decoding, prompt building, code-fence stripping, `JSON.parse`) are
embedded as executable Lean functions.  The effectful skeleton is
embedded as a function from the program input plus an environment of
request outcomes to the list of issued requests and the final result.
-/

namespace RepoInsight

/-! ## JSON values, as produced by `JSON.parse` -/

/-- A JavaScript JSON value.  Numbers are kept as rationals (the inputs
exercised here are small integers, where the double semantics of
JavaScript agree with the rationals).  Objects keep their fields in
insertion order and may repeat a name; lookup takes the last binding,
as JavaScript property assignment does. -/
inductive Json where
  | null : Json
  | bool : Bool → Json
  | num : Rat → Json
  | str : String → Json
  | arr : List Json → Json
  | obj : List (String × Json) → Json

mutual

def Json.beq : Json → Json → Bool
  | .null, .null => true
  | .bool a, .bool b => a == b
  | .num a, .num b => a == b
  | .str a, .str b => a == b
  | .arr a, .arr b => Json.beqList a b
  | .obj a, .obj b => Json.beqFields a b
  | _, _ => false

def Json.beqList : List Json → List Json → Bool
  | [], [] => true
  | x :: xs, y :: ys => Json.beq x y && Json.beqList xs ys
  | _, _ => false

def Json.beqFields : List (String × Json) → List (String × Json) → Bool
  | [], [] => true
  | a :: xs, b :: ys => a.1 == b.1 && (Json.beq a.2 b.2 && Json.beqFields xs ys)
  | _, _ => false

end

mutual

theorem Json.beq_iff_eq : ∀ a b : Json, Json.beq a b = true ↔ a = b
  | .null, .null => by simp [Json.beq]
  | .bool _, .bool _ => by simp [Json.beq]
  | .num _, .num _ => by simp [Json.beq]
  | .str _, .str _ => by simp [Json.beq]
  | .arr x, .arr y => by simp [Json.beq, Json.beqList_iff_eq x y]
  | .obj x, .obj y => by simp [Json.beq, Json.beqFields_iff_eq x y]
  | .null, .bool _ | .null, .num _ | .null, .str _ | .null, .arr _ | .null, .obj _
  | .bool _, .null | .bool _, .num _ | .bool _, .str _ | .bool _, .arr _ | .bool _, .obj _
  | .num _, .null | .num _, .bool _ | .num _, .str _ | .num _, .arr _ | .num _, .obj _
  | .str _, .null | .str _, .bool _ | .str _, .num _ | .str _, .arr _ | .str _, .obj _
  | .arr _, .null | .arr _, .bool _ | .arr _, .num _ | .arr _, .str _ | .arr _, .obj _
  | .obj _, .null | .obj _, .bool _ | .obj _, .num _ | .obj _, .str _ | .obj _, .arr _ => by
    simp [Json.beq]

theorem Json.beqList_iff_eq : ∀ xs ys : List Json, Json.beqList xs ys = true ↔ xs = ys
  | [], [] => by simp [Json.beqList]
  | x :: xs, y :: ys => by simp [Json.beqList, Json.beq_iff_eq x y, Json.beqList_iff_eq xs ys]
  | [], _ :: _ => by simp [Json.beqList]
  | _ :: _, [] => by simp [Json.beqList]

theorem Json.beqFields_iff_eq :
    ∀ xs ys : List (String × Json), Json.beqFields xs ys = true ↔ xs = ys
  | [], [] => by simp [Json.beqFields]
  | (k₁, v₁) :: xs, (k₂, v₂) :: ys => by
    simp [Json.beqFields, Json.beq_iff_eq v₁ v₂, Json.beqFields_iff_eq xs ys, and_assoc]
  | [], _ :: _ => by simp [Json.beqFields]
  | _ :: _, [] => by simp [Json.beqFields]

end

instance : DecidableEq Json := fun a b =>
  decidable_of_iff (Json.beq a b = true) (Json.beq_iff_eq a b)

/-- JavaScript property read `v[k]` for the fields this program reads:
on an object it returns the last binding of the name (later assignments
in `JSON.parse` overwrite earlier ones); on every other value except
`null` the read yields `undefined`, embedded as `none`.  The `null`
case, where JavaScript throws, is handled separately in `run`. -/
def Json.getField : Json → String → Option Json
  | .obj fields, k => (fields.reverse.find? (fun p => p.1 == k)).map (fun p => p.2)
  | _, _ => none

/-- JavaScript property write `v[k] = x` on an object: overwrite the
existing binding, or append a new one.  On non-objects (not reached in
the program) the value is returned unchanged. -/
def Json.setField : Json → String → Json → Json
  | .obj fields, k, v =>
      if fields.any (fun p => p.1 == k) then
        .obj (fields.map (fun p => if p.1 == k then (k, v) else p))
      else
        .obj (fields ++ [(k, v)])
  | j, _, _ => j

/-! ## Cleaning the AI output: `aiText.replace(/```json|```/g, '').trim()` -/

/-- The seven-character fence marker removed first by the alternation. -/
def fenceJson : List Char := "```json".toList

/-- The three-character fence marker. -/
def fencePlain : List Char := "```".toList

/-- Single left-to-right pass of the global regex replacement
`replace(/```json|```/g, '')`: at each position the seven-character
alternative is tried first, then the three-character one; on a match the
matched characters are dropped and scanning resumes after them, otherwise
the character is kept and scanning advances by one. -/
def stripFencesGo : Nat → List Char → List Char
  | 0, cs => cs
  | _ + 1, [] => []
  | fuel + 1, c :: rest =>
    if fenceJson.isPrefixOf (c :: rest) then stripFencesGo fuel ((c :: rest).drop 7)
    else if fencePlain.isPrefixOf (c :: rest) then stripFencesGo fuel ((c :: rest).drop 3)
    else c :: stripFencesGo fuel rest

def stripFences (cs : List Char) : List Char := stripFencesGo cs.length cs

/-- The JavaScript whitespace class used by `String.prototype.trim`
(restricted to the characters that can occur here: the four JSON
whitespace characters plus vertical tab, form feed, no-break space and
the BOM). -/
def jsWhitespace (c : Char) : Bool :=
  c == ' ' || c == '\t' || c == '\n' || c == '\r' ||
  c == Char.ofNat 11 || c == Char.ofNat 12 || c == Char.ofNat 160 || c == Char.ofNat 0xfeff

/-- JavaScript `String.prototype.trim`: drop whitespace from both ends. -/
def jsTrim (s : String) : String :=
  String.mk (((s.toList.dropWhile jsWhitespace).reverse.dropWhile jsWhitespace).reverse)

/-- `const cleanedJson = aiText.replace(/```json|```/g, '').trim();` -/
def cleanAiText (s : String) : String := jsTrim (String.mk (stripFences s.toList))

/-! ## `JSON.parse`, embedded as a fuel-indexed recursive descent parser -/

/-- JSON insignificant whitespace (ECMA-404 / `JSON.parse`). -/
def isJsonWs (c : Char) : Bool := c == ' ' || c == '\t' || c == '\n' || c == '\r'

def skipWs (cs : List Char) : List Char := cs.dropWhile isJsonWs

def hexVal (c : Char) : Option Nat :=
  if '0' ≤ c ∧ c ≤ '9' then some (c.toNat - 48)
  else if 'a' ≤ c ∧ c ≤ 'f' then some (c.toNat - 87)
  else if 'A' ≤ c ∧ c ≤ 'F' then some (c.toNat - 55)
  else none

/-- The single-character string escapes of JSON. -/
def escChar : Char → Option Char
  | '"' => some '"'
  | '\\' => some '\\'
  | '/' => some '/'
  | 'b' => some (Char.ofNat 8)
  | 'f' => some (Char.ofNat 12)
  | 'n' => some '\n'
  | 'r' => some '\r'
  | 't' => some '\t'
  | _ => none

/-- A Unicode scalar value, or U+FFFD where JavaScript holds a value a
Lean `Char` cannot (a lone surrogate). -/
def codeToChar (n : Nat) : Char :=
  if n.isValidChar then Char.ofNat n else Char.ofNat 0xfffd

/-- Body of a JSON string literal, after the opening quote: returns the
decoded characters and the remaining input after the closing quote.
Control characters below U+0020 are rejected, as `JSON.parse` does.
Each `\uXXXX` escape is decoded to one character; a surrogate value
(which a JavaScript string can hold but a Lean `String` cannot) is
embedded as U+FFFD and pairs are deliberately not combined — a
simplification that never changes whether parsing succeeds, only the
decoded value of strings carrying astral escapes. -/
def parseStrChars : Nat → List Char → Option (List Char × List Char)
  | 0, _ => none
  | _ + 1, [] => none
  | fuel + 1, c :: rest =>
    if c == '"' then some ([], rest)
    else if c == '\\' then
      match rest with
      | [] => none
      | e :: rest2 =>
        if e == 'u' then
          match rest2 with
          | h1 :: h2 :: h3 :: h4 :: rest3 =>
            match hexVal h1, hexVal h2, hexVal h3, hexVal h4 with
            | some a, some b, some c2, some d =>
              (fun p => (codeToChar (((a * 16 + b) * 16 + c2) * 16 + d) :: p.1, p.2))
                <$> parseStrChars fuel rest3
            | _, _, _, _ => none
          | _ => none
        else
          match escChar e with
          | some ec => (fun p => (ec :: p.1, p.2)) <$> parseStrChars fuel rest2
          | none => none
    else if c.toNat < 0x20 then none
    else (fun p => (c :: p.1, p.2)) <$> parseStrChars fuel rest

def isDigitChar (c : Char) : Bool := '0' ≤ c && c ≤ '9'

def digitsToNat (ds : List Char) : Nat := ds.foldl (fun acc c => acc * 10 + (c.toNat - 48)) 0

/-- Optional fraction part: digit value, digit count, rest. -/
def parseFrac (cs : List Char) : Option (Nat × Nat × List Char) :=
  match cs with
  | '.' :: rest =>
    let ds := rest.takeWhile isDigitChar
    if ds.isEmpty then none
    else some (digitsToNat ds, ds.length, rest.drop ds.length)
  | _ => some (0, 0, cs)

/-- Optional exponent sign. -/
def parseExpSign (cs : List Char) : Int × List Char :=
  match cs with
  | '+' :: r => (1, r)
  | '-' :: r => (-1, r)
  | _ => (1, cs)

/-- Optional exponent part: signed exponent, rest. -/
def parseExp (cs : List Char) : Option (Int × List Char) :=
  match cs with
  | c :: rest =>
    if c == 'e' || c == 'E' then
      let sc := parseExpSign rest
      let ds := sc.2.takeWhile isDigitChar
      if ds.isEmpty then none
      else some (sc.1 * (digitsToNat ds : Int), sc.2.drop ds.length)
    else some (0, cs)
  | [] => some (0, [])

/-- The rational denoted by a JSON number token. -/
def numValue (neg : Bool) (ip fv fl : Nat) (ex : Int) : Rat :=
  let base : Rat := (ip : Rat) + (fv : Rat) / ((10 : Rat) ^ fl)
  (if neg then -base else base) * (10 : Rat) ^ ex

def parseNumberTail (neg : Bool) (ip : Nat) (cs : List Char) : Option (Rat × List Char) :=
  match parseFrac cs with
  | none => none
  | some (fv, fl, cs2) =>
    match parseExp cs2 with
    | none => none
    | some (ex, cs3) => some (numValue neg ip fv fl ex, cs3)

/-- JSON number after the optional minus sign: `0` or a nonzero-led
digit run, then optional fraction and exponent. -/
def parseNumberCore (neg : Bool) (cs : List Char) : Option (Rat × List Char) :=
  match cs with
  | [] => none
  | c :: rest =>
    if c == '0' then parseNumberTail neg 0 rest
    else if isDigitChar c then
      let ds := (c :: rest).takeWhile isDigitChar
      parseNumberTail neg (digitsToNat ds) ((c :: rest).drop ds.length)
    else none

def parseNumber (cs : List Char) : Option (Rat × List Char) :=
  match cs with
  | '-' :: cs1 => parseNumberCore true cs1
  | _ => parseNumberCore false cs

def expectLit (lit : List Char) (v : Json) (cs : List Char) : Option (Json × List Char) :=
  if lit.isPrefixOf cs then some (v, cs.drop lit.length) else none

mutual

/-- A JSON value, with leading whitespace skipped. -/
def parseValue : Nat → List Char → Option (Json × List Char)
  | 0, _ => none
  | fuel + 1, cs =>
    match skipWs cs with
    | [] => none
    | c :: rest =>
      if c == '"' then
        match parseStrChars (rest.length + 1) rest with
        | some (out, r) => some (.str (String.mk out), r)
        | none => none
      else if c == 't' then expectLit "rue".toList (.bool true) rest
      else if c == 'f' then expectLit "alse".toList (.bool false) rest
      else if c == 'n' then expectLit "ull".toList .null rest
      else if c == Char.ofNat 123 then
        match skipWs rest with
        | c2 :: r2 =>
          if c2 == Char.ofNat 125 then some (.obj [], r2)
          else
            match parseMembers fuel (c2 :: r2) with
            | some (ms, r3) => some (.obj ms, r3)
            | none => none
        | [] => none
      else if c == '[' then
        match skipWs rest with
        | c2 :: r2 =>
          if c2 == ']' then some (.arr [], r2)
          else
            match parseElems fuel (c2 :: r2) with
            | some (vs, r3) => some (.arr vs, r3)
            | none => none
        | [] => none
      else if c == '-' || isDigitChar c then
        match parseNumber (c :: rest) with
        | some (q, r) => some (.num q, r)
        | none => none
      else none

/-- One or more comma-separated array elements followed by `]`. -/
def parseElems : Nat → List Char → Option (List Json × List Char)
  | 0, _ => none
  | fuel + 1, cs =>
    match parseValue fuel cs with
    | none => none
    | some (v, r) =>
      match skipWs r with
      | c :: r2 =>
        if c == ',' then
          match parseElems fuel r2 with
          | some (vs, r3) => some (v :: vs, r3)
          | none => none
        else if c == ']' then some ([v], r2)
        else none
      | [] => none

/-- One or more comma-separated `"key": value` members followed by a
closing right brace.  The leading whitespace of the first member has
already been skipped by the caller. -/
def parseMembers : Nat → List Char → Option (List (String × Json) × List Char)
  | 0, _ => none
  | fuel + 1, cs =>
    match cs with
    | [] => none
    | c :: rest =>
      if c == '"' then
        match parseStrChars (rest.length + 1) rest with
        | some (key, r) =>
          match skipWs r with
          | c2 :: r2 =>
            if c2 == ':' then
              match parseValue fuel r2 with
              | some (v, r3) =>
                match skipWs r3 with
                | c3 :: r4 =>
                  if c3 == ',' then
                    match parseMembers fuel (skipWs r4) with
                    | some (ms, r5) => some ((String.mk key, v) :: ms, r5)
                    | none => none
                  else if c3 == Char.ofNat 125 then some ([(String.mk key, v)], r4)
                  else none
                | [] => none
              | none => none
            else none
          | [] => none
        | none => none
      else none

end

/-- `JSON.parse`: parse one JSON value and require that only whitespace
follows; `none` embeds a thrown `SyntaxError`. -/
def parseJsonText (s : String) : Option Json :=
  match parseValue (2 * s.toList.length + 2) s.toList with
  | some (v, rest) => if skipWs rest = [] then some v else none
  | none => none

/-! ### Auxiliary notions about the interaction of fence stripping with
JSON syntax -/

/-- The backtick character, the first character of both fence markers. -/
def backtick : Char := Char.ofNat 96

/-- A character that can neither end nor continue a fence-marker match:
none of `` ` ``, `j`, `s`, `o`, `n`.  Every character that can end a
successfully parsed JSON value (closing quote, closing brackets,
digits, `e`, `l`) is of this kind. -/
def safeEnd (c : Char) : Prop :=
  c ≠ backtick ∧ c ≠ 'j' ∧ c ≠ 's' ∧ c ≠ 'o' ∧ c ≠ 'n'

/-- A continuation whose head cannot extend a number token and cannot
start a fence-marker match. -/
def headSafeL : List Char → Prop
  | [] => True
  | c :: _ => isDigitChar c = false ∧ c ≠ '.' ∧ c ≠ 'e' ∧ c ≠ 'E' ∧ c ≠ backtick

/-- The property asserted by claim C10: some AI response that is valid
JSON containing a triple-backtick fence marker (necessarily inside its
string values) is altered by the global stripping in such a way that
the text handed to `JSON.parse` differs from the original and parsing
falls into the failure branch, although the original itself parses. -/
def c10Property : Prop :=
  ∃ s : String, (parseJsonText s).isSome ∧
    (∃ pre post, s.toList = pre ++ fencePlain ++ post) ∧
    cleanAiText s ≠ s ∧
    parseJsonText (cleanAiText s) = none

/-! ## File-tree filtering -/

/-- One entry of the recursive git tree response. -/
structure TreeEntry where
  type : String
  path : String
deriving DecidableEq

/-- The extensions dropped by `/\.(png|jpg|jpeg|svg|ico|lockb|lock)$/`:
the regex matches a path exactly when the path ends with a dot followed
by one of the alternatives. -/
def badExtensions : List String := [".png", ".jpg", ".jpeg", ".svg", ".ico", ".lockb", ".lock"]

def hasBadExt (path : String) : Bool :=
  badExtensions.any (fun e => e.toList.isSuffixOf path.toList)

/-- `treeRes.data.tree.filter(f => f.type === 'blob' && !f.path.match(...)).map(f => f.path)` -/
def treeStructure (entries : List TreeEntry) : List String :=
  (entries.filter (fun f => f.type == "blob" && !hasBadExt f.path)).map TreeEntry.path

/-! ## `Buffer.from(content, 'base64').toString('utf-8')` -/

def base64Val (c : Char) : Option Nat :=
  if 'A' ≤ c ∧ c ≤ 'Z' then some (c.toNat - 65)
  else if 'a' ≤ c ∧ c ≤ 'z' then some (c.toNat - 71)
  else if '0' ≤ c ∧ c ≤ '9' then some (c.toNat + 4)
  else if c == '+' then some 62
  else if c == '/' then some 63
  else none

/-- Repack 6-bit groups into bytes; a trailing group of one character
contributes nothing, two or three characters contribute one or two
bytes, as Node's forgiving base64 decoder does. -/
def base64Groups : List Nat → List Nat
  | a :: b :: c :: d :: rest =>
      (a * 4 + b / 16) :: ((b % 16) * 16 + c / 4) :: ((c % 4) * 64 + d) :: base64Groups rest
  | [a, b] => [a * 4 + b / 16]
  | [a, b, c] => [a * 4 + b / 16, (b % 16) * 16 + c / 4]
  | _ => []

def decodeBase64 (s : String) : List Nat := base64Groups (s.toList.filterMap base64Val)

/-- UTF-8 decoding of a byte list, with U+FFFD on malformed bytes. -/
def utf8DecodeGo : Nat → List Nat → List Char
  | 0, _ => []
  | _ + 1, [] => []
  | fuel + 1, b :: rest =>
    if b < 0x80 then codeToChar b :: utf8DecodeGo fuel rest
    else if 0xc2 ≤ b ∧ b ≤ 0xdf then
      match rest with
      | b2 :: rest2 =>
        if 0x80 ≤ b2 ∧ b2 ≤ 0xbf then
          codeToChar ((b - 0xc0) * 64 + (b2 - 0x80)) :: utf8DecodeGo fuel rest2
        else codeToChar 0xfffd :: utf8DecodeGo fuel (b2 :: rest2)
      | [] => [codeToChar 0xfffd]
    else if 0xe0 ≤ b ∧ b ≤ 0xef then
      match rest with
      | b2 :: b3 :: rest3 =>
        if (0x80 ≤ b2 ∧ b2 ≤ 0xbf) ∧ (0x80 ≤ b3 ∧ b3 ≤ 0xbf) then
          codeToChar ((b - 0xe0) * 4096 + (b2 - 0x80) * 64 + (b3 - 0x80)) :: utf8DecodeGo fuel rest3
        else codeToChar 0xfffd :: utf8DecodeGo fuel (b2 :: b3 :: rest3)
      | _ => [codeToChar 0xfffd]
    else if 0xf0 ≤ b ∧ b ≤ 0xf4 then
      match rest with
      | b2 :: b3 :: b4 :: rest4 =>
        if (0x80 ≤ b2 ∧ b2 ≤ 0xbf) ∧ (0x80 ≤ b3 ∧ b3 ≤ 0xbf) ∧ (0x80 ≤ b4 ∧ b4 ≤ 0xbf) then
          codeToChar ((b - 0xf0) * 262144 + (b2 - 0x80) * 4096 + (b3 - 0x80) * 64 + (b4 - 0x80))
            :: utf8DecodeGo fuel rest4
        else codeToChar 0xfffd :: utf8DecodeGo fuel (b2 :: b3 :: b4 :: rest4)
      | _ => [codeToChar 0xfffd]
    else codeToChar 0xfffd :: utf8DecodeGo fuel rest

def utf8Decode (bs : List Nat) : List Char := utf8DecodeGo bs.length bs

def decodeContent (s : String) : String := String.mk (utf8Decode (decodeBase64 s))

/-! ## URL parsing: `repoUrl.match(/github\.com\/([^\/]+)\/([^\/]+)/)` -/

def githubMarker : List Char := "github.com/".toList

/-- Attempt the regex at the head of the input: the literal
`github.com/`, then a nonempty run of non-slash characters, a slash,
and a second nonempty run of non-slash characters. -/
def matchGithubAt (cs : List Char) : Option (String × String) :=
  if githubMarker.isPrefixOf cs then
    let rest := cs.drop githubMarker.length
    let owner := rest.takeWhile (fun c => c != '/')
    if owner.isEmpty then none
    else
      match rest.drop owner.length with
      | '/' :: r2 =>
        let repo := r2.takeWhile (fun c => c != '/')
        if repo.isEmpty then none else some (String.mk owner, String.mk repo)
      | _ => none
  else none

/-- The regex engine scans left to right and returns the first position
where the pattern matches. -/
def scanGithub : List Char → Option (String × String)
  | [] => none
  | c :: rest =>
    match matchGithubAt (c :: rest) with
    | some r => some r
    | none => scanGithub rest

def parseGithubUrl (url : String) : Option (String × String) := scanGithub url.toList

/-! ## Prompt construction -/

/-- JavaScript `s.slice(0, n)` for the nonnegative bounds used here. -/
def jsSlice (s : String) (n : Nat) : String := String.mk (s.toList.take n)

/-- The fixed prompt template with its three interpolations:
`pkgContent ? pkgContent.slice(0, 5000) : "Not found"`,
`readmeContent.slice(0, 15000)` and
`treeStructure.slice(0, 300).join('\n')`. -/
def buildPrompt (pkgContent readmeContent : String) (ts : List String) : String :=
  "\nYou are a Senior Software Architect. Analyze this GitHub repository context.\n\nCONTEXT:\n1. PACKAGE.JSON: " ++
  (if pkgContent == "" then "Not found" else jsSlice pkgContent 5000) ++
  "\n2. README (Truncated): " ++ jsSlice readmeContent 15000 ++
  "\n3. FILE TREE (First 300 files): " ++ String.intercalate "\n" (ts.take 300) ++
  "\n\nTASK:\nReturn a strictly valid JSON object with exactly these fields:\n- \"purpose\": A clear, 1-2 sentence summary of what this project actually DOES.\n- \"tech_stack\": A comma-separated list of the main frameworks/tools (e.g., \"Next.js, Tailwind, Supabase\").\n- \"architecture_summary\": A brief explanation of the code structure (e.g., \"Monorepo using Turborepo with separate frontend/backend packages\").\n- \"complexity_score\": An integer from 1 (Simple script) to 10 (Enterprise scale system).\n\nOutput ONLY the JSON.\n        "

/-! ## Defensive AI-response handling -/

/-- The default object built before the `try`:
`{ purpose: "Analysis Failed", tech_stack: "Unknown",
   architecture_summary: "Unknown", complexity_score: 0 }`. -/
def aiDefaults : Json :=
  .obj [("purpose", .str "Analysis Failed"), ("tech_stack", .str "Unknown"),
        ("architecture_summary", .str "Unknown"), ("complexity_score", .num 0)]

/-- `aiData` after the `try`/`catch`: on parse success the parsed value
replaces the defaults wholesale; on failure the defaults survive with
`purpose` overwritten by the placeholder. -/
def aiData (aiText : String) : Json :=
  match parseJsonText (cleanAiText aiText) with
  | some v => v
  | none => aiDefaults.setField "purpose" (.str "AI JSON Parsing Failed. See raw log.")

/-! ## The orchestration skeleton -/

/-- The raw actor input; each field may be missing. -/
structure Input where
  repoUrl : Option String
  geminiApiKey : Option String

/-- JavaScript falsiness of `input?.field` for an optional string:
`undefined` and the empty string are falsy. -/
def falsyOpt : Option String → Bool
  | none => true
  | some s => s == ""

/-- Truthiness of a `content` field. -/
def truthyContent : Option String → Bool
  | none => false
  | some s => s != ""

/-- An HTTP response as seen through the axios config
`validateStatus: status => status < 500`: any status below 500 resolves. -/
structure Response (α : Type) where
  status : Nat
  data : α

/-- A request either rejects (network failure or status ≥ 500) or
resolves with a response. -/
inductive Outcome (α : Type) where
  | reject : Outcome α
  | resolve : Response α → Outcome α

/-- The metadata fields the program reads. -/
structure MetaData where
  description : Option String
  stargazers_count : Int

/-- A `readme` or `contents/package.json` response body. -/
structure ContentData where
  content : Option String

/-- A `git/trees` response body. -/
structure TreeData where
  tree : Option (List TreeEntry)

/-- The behaviour of the external world for one run: the outcome of
each version-control request and of the single AI call (`none` embeds a
rejected AI call). -/
structure Env where
  metaRes : Outcome MetaData
  langRes : Outcome Json
  readmeRes : Outcome ContentData
  treeMainRes : Outcome TreeData
  treeMasterRes : Outcome TreeData
  pkgRes : Outcome ContentData
  aiRes : Option String

/-- A network request the program can issue. -/
inductive Request where
  | meta : Request
  | languages : Request
  | readme : Request
  | pkg : Request
  | tree : String → Request
  | ai : String → Request
deriving DecidableEq

/-- The fatal errors of the run. -/
inductive RunError where
  | missingRepoUrl
  | missingApiKey
  | invalidUrl
  | repoNotFound
  | vcsTransport
  | aiTransport
  | nullAiData
deriving DecidableEq

/-- The fixed error messages thrown by the script itself; transport
errors carry the underlying library message instead. -/
def RunError.message : RunError → Option String
  | .missingRepoUrl => some "Input \"repoUrl\" is required"
  | .missingApiKey => some "Input \"geminiApiKey\" is required"
  | .invalidUrl => some "Invalid GitHub URL"
  | .repoNotFound => some "Repository not found (or private). This tool only works with Public Repos."
  | _ => none

/-- One record as handed to `Actor.pushData`; the four AI fields are
JavaScript property reads and may be `undefined` (`none`). -/
structure OutputRecord where
  repo : String
  description : String
  stars : Int
  languages : Json
  file_tree : List String
  purpose : Option Json
  tech_stack : Option Json
  architecture_summary : Option Json
  complexity_score : Option Json
deriving DecidableEq

/-- The fixed mock record pushed in TEST_MODE. -/
def mockRecord : OutputRecord :=
  { repo := "facebook/react"
    description := "MOCK DATA for Health Check."
    stars := 100
    languages := .obj [("TypeScript", .num 100)]
    file_tree := ["README.md", "package.json"]
    purpose := some (.str "This is a dummy response to pass automated testing without using API credits.")
    tech_stack := some (.str "Mock, Test, Dummy")
    architecture_summary := some (.str "Automated test structure.")
    complexity_score := some (.num 1) }

instance {ε α : Type} [DecidableEq ε] [DecidableEq α] : DecidableEq (Except ε α) := fun x y =>
  match x, y with
  | .ok a, .ok b => if h : a = b then .isTrue (by rw [h]) else .isFalse (by simp [h])
  | .error a, .error b => if h : a = b then .isTrue (by rw [h]) else .isFalse (by simp [h])
  | .ok _, .error _ => .isFalse (by simp)
  | .error _, .ok _ => .isFalse (by simp)

/-- The issued requests together with the final result: a pushed record
list on success, a propagated error otherwise. -/
structure RunResult where
  requests : List Request
  result : Except RunError (List OutputRecord)

/-- `axios.get(trees/main).catch(() => axios.get(trees/master))`:
the fallback outcome is consulted only when the primary rejects. -/
def treeJoin (mainRes fallback : Outcome TreeData) : Outcome TreeData :=
  match mainRes with
  | .reject => fallback
  | .resolve r => .resolve r

/-- The tree requests issued: the fallback is sent exactly when the
primary rejects. -/
def treeRequests (mainRes : Outcome TreeData) : List Request :=
  match mainRes with
  | .reject => [.tree "main", .tree "master"]
  | .resolve _ => [.tree "main"]

/-- The five version-control requests fired by `Promise.all`. -/
def vcsRequests (env : Env) : List Request :=
  [.meta, .languages, .readme] ++ treeRequests env.treeMainRes ++ [.pkg]

/-- README or manifest text: decoded only when the status is 200 and
the `content` field is truthy, otherwise the empty string. -/
def contentOf (r : Response ContentData) : String :=
  if r.status == 200 && truthyContent r.data.content then
    decodeContent (r.data.content.getD "")
  else ""

/-- The filtered file tree: the status is never consulted, only the
truthiness of `treeRes?.data?.tree`. -/
def treeOf (r : Response TreeData) : List String :=
  match r.data.tree with
  | some entries => treeStructure entries
  | none => []

/-- `repoRes.data.description || "No description provided"`. -/
def descriptionOf (m : MetaData) : String :=
  match m.description with
  | some d => if d == "" then "No description provided" else d
  | none => "No description provided"

/-- The record pushed on the success path. -/
def mkRecord (owner repo : String) (m : MetaData) (langData : Json) (ts : List String)
    (ad : Json) : OutputRecord :=
  { repo := owner ++ "/" ++ repo
    description := descriptionOf m
    stars := m.stargazers_count
    languages := langData
    file_tree := ts
    purpose := ad.getField "purpose"
    tech_stack := ad.getField "tech_stack"
    architecture_summary := ad.getField "architecture_summary"
    complexity_score := ad.getField "complexity_score" }

/-- The whole `Actor.main` body.  Control flow in source order:
TEST_MODE bypass, required-field checks, URL parsing, the five-way
request fan-out with the tree fallback, the 404 check on the metadata
response after all requests have settled, response transformation,
prompt construction, the AI call, defensive parsing (a parsed `null`
makes the later property reads throw), and the single `pushData`. -/
def run (input : Option Input) (env : Env) : RunResult :=
  if input.bind Input.geminiApiKey = some "TEST_MODE" then
    { requests := [], result := .ok [mockRecord] }
  else if falsyOpt (input.bind Input.repoUrl) then
    { requests := [], result := .error .missingRepoUrl }
  else if falsyOpt (input.bind Input.geminiApiKey) then
    { requests := [], result := .error .missingApiKey }
  else
    match parseGithubUrl ((input.bind Input.repoUrl).getD "") with
    | none => { requests := [], result := .error .invalidUrl }
    | some (owner, repo) =>
      match env.metaRes, env.langRes, env.readmeRes,
            treeJoin env.treeMainRes env.treeMasterRes, env.pkgRes with
      | .resolve repoR, .resolve langR, .resolve readmeR, .resolve treeR, .resolve pkgR =>
        if repoR.status = 404 then
          { requests := vcsRequests env, result := .error .repoNotFound }
        else
          let ts := treeOf treeR
          let prompt := buildPrompt (contentOf pkgR) (contentOf readmeR) ts
          match env.aiRes with
          | none => { requests := vcsRequests env ++ [.ai prompt], result := .error .aiTransport }
          | some aiText =>
            match aiData aiText with
            | .null =>
              { requests := vcsRequests env ++ [.ai prompt], result := .error .nullAiData }
            | ad =>
              { requests := vcsRequests env ++ [.ai prompt],
                result := .ok [mkRecord owner repo repoR.data langR.data ts ad] }
      | _, _, _, _, _ => { requests := vcsRequests env, result := .error .vcsTransport }

/-! ## Spec-side definitions used to state refinement claims -/

/-- The file-tree filter as the specification words it: keep only the
blob-type entries whose path does not end in one of the image or
lock-file extensions, map each to its path string, preserving input
ordering. -/
def specTreeFilter (entries : List TreeEntry) : List String :=
  (entries.filter fun f =>
    decide (f.type = "blob" ∧ ¬ ∃ e ∈ badExtensions, e.toList <:+ f.path.toList)).map
    TreeEntry.path

/-- Substring containment, for stating whether a field value carries
the raw AI text. -/
def containsSub (s sub : String) : Bool :=
  s.toList.tails.any fun t => sub.toList.isPrefixOf t

/-! ## Concrete inputs and environments for witnesses and counterexamples -/

/-- A well-formed input. -/
def inputOkRec : Input :=
  { repoUrl := some "https://github.com/acme/widget", geminiApiKey := some "key-123" }

def inputOk : Option Input := some inputOkRec

/-- All five requests resolve, the AI answers with text that is not
JSON. -/
def envParseFail : Env :=
  { metaRes := .resolve { status := 200, data := { description := some "A tool", stargazers_count := 5 } }
    langRes := .resolve { status := 200, data := .obj [("TypeScript", .num 100)] }
    readmeRes := .resolve { status := 404, data := { content := none } }
    treeMainRes := .resolve { status := 200, data := { tree := some [⟨"blob", "src/main.ts"⟩] } }
    treeMasterRes := .reject
    pkgRes := .resolve { status := 404, data := { content := none } }
    aiRes := some "This is not JSON" }

/-- The languages request resolves with a 404 and GitHub's error body;
everything else is unremarkable. -/
def envLang404 : Env :=
  { metaRes := .resolve { status := 200, data := { description := none, stargazers_count := 3 } }
    langRes := .resolve
      { status := 404
        data := .obj [("message", .str "Not Found"),
                      ("documentation_url", .str "https://docs.github.com/rest")] }
    readmeRes := .resolve { status := 404, data := { content := none } }
    treeMainRes := .resolve { status := 200, data := { tree := none } }
    treeMasterRes := .reject
    pkgRes := .resolve { status := 404, data := { content := none } }
    aiRes := some "ok" }

/-- The `main` tree request rejects and the `master` fallback succeeds. -/
def envFallback : Env :=
  { metaRes := .resolve { status := 200, data := { description := some "d", stargazers_count := 1 } }
    langRes := .resolve { status := 200, data := .obj [] }
    readmeRes := .resolve { status := 404, data := { content := none } }
    treeMainRes := .reject
    treeMasterRes := .resolve
      { status := 200
        data := { tree := some [⟨"blob", "logo.svg"⟩, ⟨"blob", "app.py"⟩] } }
    pkgRes := .resolve { status := 404, data := { content := none } }
    aiRes := some "nope" }

/-- The metadata request resolves with a 404. -/
def envMeta404 : Env :=
  { metaRes := .resolve { status := 404, data := { description := none, stargazers_count := 0 } }
    langRes := .resolve { status := 200, data := .obj [] }
    readmeRes := .resolve { status := 200, data := { content := some "SGk=" } }
    treeMainRes := .resolve { status := 200, data := { tree := some [⟨"blob", "a.ts"⟩] } }
    treeMasterRes := .reject
    pkgRes := .resolve { status := 200, data := { content := some "e30=" } }
    aiRes := some "irrelevant" }

/-- The AI answers with a fenced JSON object that only sets `purpose`. -/
def envFencedPurpose : Env :=
  { metaRes := .resolve { status := 200, data := { description := some "A tool", stargazers_count := 5 } }
    langRes := .resolve { status := 200, data := .obj [("TypeScript", .num 100)] }
    readmeRes := .resolve { status := 404, data := { content := none } }
    treeMainRes := .resolve { status := 200, data := { tree := some [⟨"blob", "src/main.ts"⟩] } }
    treeMasterRes := .reject
    pkgRes := .resolve { status := 404, data := { content := none } }
    aiRes := some "```json\n\x7b\"purpose\":\"X\"\x7d\n```" }

/-! ## Helper lemmas about the run skeleton -/

theorem tree_main_mem_treeRequests (o : Outcome TreeData) :
    Request.tree "main" ∈ treeRequests o := by
  cases o <;> simp [treeRequests]

theorem ai_not_mem_vcsRequests (env : Env) (p : String) :
    Request.ai p ∉ vcsRequests env := by
  cases h : env.treeMainRes <;> simp [vcsRequests, treeRequests, h]

theorem someBind {α β : Type} (a : α) (f : α → Option β) : (some a).bind f = f a := rfl

/-- Reduction of `run` on the fully-resolved happy path. -/
theorem run_resolved (inp : Input) (env : Env)
    (hk : inp.geminiApiKey ≠ some "TEST_MODE")
    (hru : falsyOpt inp.repoUrl = false) (hgk : falsyOpt inp.geminiApiKey = false)
    (owner repo : String) (hurl : parseGithubUrl (inp.repoUrl.getD "") = some (owner, repo))
    (mR : Response MetaData) (hm : env.metaRes = .resolve mR) (hm404 : mR.status ≠ 404)
    (lR : Response Json) (hl : env.langRes = .resolve lR)
    (rR : Response ContentData) (hr : env.readmeRes = .resolve rR)
    (tR : Response TreeData) (ht : treeJoin env.treeMainRes env.treeMasterRes = .resolve tR)
    (pR : Response ContentData) (hp : env.pkgRes = .resolve pR)
    (t : String) (hai : env.aiRes = some t) (hnn : aiData t ≠ Json.null) :
    run (some inp) env =
      { requests := vcsRequests env ++
          [.ai (buildPrompt (contentOf pR) (contentOf rR) (treeOf tR))],
        result := .ok [mkRecord owner repo mR.data lR.data (treeOf tR) (aiData t)] } := by
  unfold run
  simp only [someBind]
  rw [if_neg hk, if_neg (by simp [hru]), if_neg (by simp [hgk]), hurl, hm, hl, hr, ht, hp]
  dsimp only
  rw [if_neg hm404, hai]
  dsimp only
  cases had : aiData t with
  | null => exact absurd had hnn
  | bool b => simp [had]
  | num q => simp [had]
  | str s => simp [had]
  | arr a => simp [had]
  | obj o => simp [had]

/-- On a parse failure the `aiData` object is the default object with
`purpose` overwritten by the placeholder. -/
theorem aiData_parse_failure (t : String) (h : parseJsonText (cleanAiText t) = none) :
    aiData t = Json.obj [("purpose", .str "AI JSON Parsing Failed. See raw log."),
      ("tech_stack", .str "Unknown"), ("architecture_summary", .str "Unknown"),
      ("complexity_score", .num 0)] := by
  unfold aiData
  rw [h]
  rfl

/-! ## Claim C6 -/

/-- Claim C6 (confirmed): the file-tree transform keeps exactly the
blob-type entries whose path does not end in `.png`, `.jpg`, `.jpeg`,
`.svg`, `.ico`, `.lockb` or `.lock`, maps each kept entry to its path
and preserves the input ordering; on the list with blob paths
`a.png`, `b.ts`, `c.lock`, `d/e.py` it yields exactly
`["b.ts", "d/e.py"]`. -/
theorem claim_C6 :
    (∀ entries, treeStructure entries = specTreeFilter entries) ∧
    treeStructure [⟨"blob", "a.png"⟩, ⟨"blob", "b.ts"⟩, ⟨"blob", "c.lock"⟩, ⟨"blob", "d/e.py"⟩]
      = ["b.ts", "d/e.py"] := by
  constructor
  · intro entries
    unfold treeStructure specTreeFilter
    congr 1
    apply List.filter_congr
    intro f _
    rw [Bool.eq_iff_iff]
    simp [hasBadExt, List.any_eq_true, List.isSuffixOf_iff_suffix]
  · decide

/-! ## Claim C9 -/

/-- Claim C9 (confirmed): whenever the supplied API key is the sentinel
`TEST_MODE`, the run issues zero network requests and pushes exactly
the fixed mock record, without validating the other input fields and
without error. -/
theorem claim_C9 (input : Option Input) (env : Env)
    (h : input.bind Input.geminiApiKey = some "TEST_MODE") :
    (run input env).requests = [] ∧ (run input env).result = .ok [mockRecord] := by
  unfold run
  rw [if_pos h]
  exact ⟨rfl, rfl⟩

/-- Witness for C9 at a concrete input whose repository URL is even
absent. -/
theorem claim_C9_witness :
    ((some { repoUrl := none, geminiApiKey := some "TEST_MODE" } : Option Input).bind
        Input.geminiApiKey = some "TEST_MODE") ∧
    (run (some { repoUrl := none, geminiApiKey := some "TEST_MODE" }) envParseFail).requests = [] ∧
    (run (some { repoUrl := none, geminiApiKey := some "TEST_MODE" }) envParseFail).result
      = .ok [mockRecord] :=
  ⟨rfl, claim_C9 (some { repoUrl := none, geminiApiKey := some "TEST_MODE" }) envParseFail rfl⟩

/-! ## Claim C5 -/

/-- Claim C5 counterexample: an input with the repository URL absent
but the API key equal to the sentinel does not fail with a MissingField
error — the TEST_MODE branch runs first and the run succeeds with the
mock record. -/
theorem claim_C5_counterexample :
    (run (some { repoUrl := none, geminiApiKey := some "TEST_MODE" }) envLang404).result
      = .ok [mockRecord] ∧
    (run (some { repoUrl := none, geminiApiKey := some "TEST_MODE" }) envLang404).requests = [] := by
  exact ⟨rfl, rfl⟩

/-- Claim C5 (corrected): for every input in which the repository URL
or the AI API key is absent or empty, *and whose API key is not the
TEST_MODE sentinel*, the run fails with a MissingField error before any
network request (zero requests) and no record is emitted. -/
theorem claim_C5_amended (input : Option Input) (env : Env)
    (hk : input.bind Input.geminiApiKey ≠ some "TEST_MODE")
    (h : falsyOpt (input.bind Input.repoUrl) = true ∨
         falsyOpt (input.bind Input.geminiApiKey) = true) :
    (run input env).requests = [] ∧
    ((run input env).result = .error .missingRepoUrl ∨
     (run input env).result = .error .missingApiKey) := by
  unfold run
  rw [if_neg hk]
  by_cases h2 : falsyOpt (input.bind Input.repoUrl) = true
  · rw [if_pos h2]
    exact ⟨rfl, .inl rfl⟩
  · rcases h with h | h
    · exact absurd h h2
    · rw [if_neg h2, if_pos h]
      exact ⟨rfl, .inr rfl⟩

/-- Witness for the amended C5 at the empty input. -/
theorem claim_C5_witness :
    ((none : Option Input).bind Input.geminiApiKey ≠ some "TEST_MODE") ∧
    (falsyOpt ((none : Option Input).bind Input.repoUrl) = true) ∧
    (run none envLang404).requests = [] ∧
    ((run none envLang404).result = .error .missingRepoUrl ∨
     (run none envLang404).result = .error .missingApiKey) := by
  refine ⟨by decide, rfl, ?_⟩
  exact claim_C5_amended none envLang404 (by decide) (.inl rfl)

/-! ## Claim C1 -/

/-- Claim C1 counterexample: at a concrete AI response that is not
JSON, the run succeeds and the `purpose` field is the fixed placeholder
string, which does not contain — let alone preserve — the raw AI text;
the raw text appears nowhere in the output record. -/
theorem claim_C1_counterexample :
    (run inputOk envParseFail).result = .ok [{
      repo := "acme/widget", description := "A tool", stars := 5,
      languages := .obj [("TypeScript", .num 100)], file_tree := ["src/main.ts"],
      purpose := some (.str "AI JSON Parsing Failed. See raw log."),
      tech_stack := some (.str "Unknown"), architecture_summary := some (.str "Unknown"),
      complexity_score := some (.num 0) }] ∧
    containsSub "AI JSON Parsing Failed. See raw log." "This is not JSON" = false := by
  exact ⟨by decide, by decide⟩

/-- Claim C1 (corrected): for every AI response whose stripped and
trimmed text fails to parse as JSON, the run raises no error and still
emits exactly one record; the `purpose` field is set to the fixed
placeholder string (the raw AI text is only mentioned by reference to
the log, not stored in the field), and the other AI fields keep their
preset defaults `"Unknown"`, `"Unknown"`, `0`. -/
theorem claim_C1_amended (inp : Input) (env : Env)
    (hk : inp.geminiApiKey ≠ some "TEST_MODE")
    (hru : falsyOpt inp.repoUrl = false) (hgk : falsyOpt inp.geminiApiKey = false)
    (owner repo : String) (hurl : parseGithubUrl (inp.repoUrl.getD "") = some (owner, repo))
    (mR : Response MetaData) (hm : env.metaRes = .resolve mR) (hm404 : mR.status ≠ 404)
    (lR : Response Json) (hl : env.langRes = .resolve lR)
    (rR : Response ContentData) (hr : env.readmeRes = .resolve rR)
    (tR : Response TreeData) (ht : treeJoin env.treeMainRes env.treeMasterRes = .resolve tR)
    (pR : Response ContentData) (hp : env.pkgRes = .resolve pR)
    (t : String) (hai : env.aiRes = some t)
    (hparse : parseJsonText (cleanAiText t) = none) :
    ∃ rec, (run (some inp) env).result = .ok [rec] ∧
      rec.purpose = some (.str "AI JSON Parsing Failed. See raw log.") ∧
      rec.tech_stack = some (.str "Unknown") ∧
      rec.architecture_summary = some (.str "Unknown") ∧
      rec.complexity_score = some (.num 0) := by
  have hobj := aiData_parse_failure t hparse
  have hnn : aiData t ≠ Json.null := by rw [hobj]; simp
  rw [run_resolved inp env hk hru hgk owner repo hurl mR hm hm404 lR hl rR hr tR ht pR hp
    t hai hnn]
  refine ⟨_, rfl, ?_, ?_, ?_, ?_⟩ <;> simp [mkRecord, hobj, Json.getField, List.find?]

/-- Witness for the amended C1 on the concrete environment. -/
theorem claim_C1_witness :
    parseJsonText (cleanAiText "This is not JSON") = none ∧
    ∃ rec, (run (some inputOkRec) envParseFail).result = .ok [rec] ∧
      rec.purpose = some (.str "AI JSON Parsing Failed. See raw log.") ∧
      rec.tech_stack = some (.str "Unknown") ∧
      rec.architecture_summary = some (.str "Unknown") ∧
      rec.complexity_score = some (.num 0) :=
  ⟨rfl, claim_C1_amended inputOkRec envParseFail (by decide) rfl rfl "acme" "widget" rfl
    _ rfl (by decide) _ rfl _ rfl _ rfl _ rfl "This is not JSON" rfl rfl⟩

/-! ## Claim C2 -/

/-- Claim C2 (confirmed): when the `main` tree request fails and the
`master` fallback succeeds with tree entries, the fallback request is
issued exactly once and the `file_tree` field of the (single) output
record equals the fallback response's entries filtered to blobs without
excluded extensions, in order. -/
theorem claim_C2 (inp : Input) (env : Env)
    (hk : inp.geminiApiKey ≠ some "TEST_MODE")
    (hru : falsyOpt inp.repoUrl = false) (hgk : falsyOpt inp.geminiApiKey = false)
    (owner repo : String) (hurl : parseGithubUrl (inp.repoUrl.getD "") = some (owner, repo))
    (hmain : env.treeMainRes = .reject)
    (tR : Response TreeData) (hmaster : env.treeMasterRes = .resolve tR)
    (entries : List TreeEntry) (htree : tR.data.tree = some entries)
    (mR : Response MetaData) (hm : env.metaRes = .resolve mR) (hm404 : mR.status ≠ 404)
    (lR : Response Json) (hl : env.langRes = .resolve lR)
    (rR : Response ContentData) (hr : env.readmeRes = .resolve rR)
    (pR : Response ContentData) (hp : env.pkgRes = .resolve pR)
    (t : String) (hai : env.aiRes = some t) (hnn : aiData t ≠ Json.null) :
    (run (some inp) env).requests.count (Request.tree "master") = 1 ∧
    ∃ rec, (run (some inp) env).result = .ok [rec] ∧ rec.file_tree = treeStructure entries := by
  have ht : treeJoin env.treeMainRes env.treeMasterRes = .resolve tR := by
    rw [hmain, hmaster]; rfl
  rw [run_resolved inp env hk hru hgk owner repo hurl mR hm hm404 lR hl rR hr tR ht pR hp
    t hai hnn]
  constructor
  · simp [vcsRequests, treeRequests, hmain, List.count_append, List.count_cons]
  · exact ⟨_, rfl, by simp [mkRecord, treeOf, htree]⟩

/-- Witness for C2 on the concrete fallback environment. -/
theorem claim_C2_witness :
    envFallback.treeMainRes = .reject ∧
    ((run (some inputOkRec) envFallback).requests.count (Request.tree "master") = 1 ∧
     ∃ rec, (run (some inputOkRec) envFallback).result = .ok [rec] ∧
       rec.file_tree = treeStructure [⟨"blob", "logo.svg"⟩, ⟨"blob", "app.py"⟩]) :=
  ⟨rfl, claim_C2 inputOkRec envFallback (by decide) rfl rfl "acme" "widget" rfl rfl
    _ rfl _ rfl _ rfl (by decide) _ rfl _ rfl _ rfl "nope" rfl (by decide)⟩

/-! ## Claim C3 -/

/-- Claim C3 (confirmed): when the metadata request resolves with
status 404 — and, as the claim presupposes, the other requests have
resolved as well — the run fails with the RepositoryNotFound error
whatever the other responses contain; all five requests were issued
(no short-circuit), no AI request is made, and no record is emitted. -/
theorem claim_C3 (inp : Input) (env : Env)
    (hk : inp.geminiApiKey ≠ some "TEST_MODE")
    (hru : falsyOpt inp.repoUrl = false) (hgk : falsyOpt inp.geminiApiKey = false)
    (owner repo : String) (hurl : parseGithubUrl (inp.repoUrl.getD "") = some (owner, repo))
    (mR : Response MetaData) (hm : env.metaRes = .resolve mR) (h404 : mR.status = 404)
    (lR : Response Json) (hl : env.langRes = .resolve lR)
    (rR : Response ContentData) (hr : env.readmeRes = .resolve rR)
    (tR : Response TreeData) (ht : treeJoin env.treeMainRes env.treeMasterRes = .resolve tR)
    (pR : Response ContentData) (hp : env.pkgRes = .resolve pR) :
    (run (some inp) env).result = .error .repoNotFound ∧
    Request.meta ∈ (run (some inp) env).requests ∧
    Request.languages ∈ (run (some inp) env).requests ∧
    Request.readme ∈ (run (some inp) env).requests ∧
    Request.tree "main" ∈ (run (some inp) env).requests ∧
    Request.pkg ∈ (run (some inp) env).requests ∧
    ∀ p, Request.ai p ∉ (run (some inp) env).requests := by
  have hrun : run (some inp) env =
      { requests := vcsRequests env, result := .error .repoNotFound } := by
    unfold run
    simp only [someBind]
    rw [if_neg hk, if_neg (by simp [hru]), if_neg (by simp [hgk]), hurl, hm, hl, hr, ht, hp]
    dsimp only
    rw [if_pos h404]
  rw [hrun]
  refine ⟨rfl, ?_, ?_, ?_, ?_, ?_, ?_⟩
  · simp [vcsRequests]
  · simp [vcsRequests]
  · simp [vcsRequests]
  · simp [vcsRequests, tree_main_mem_treeRequests]
  · simp [vcsRequests]
  · intro p; exact ai_not_mem_vcsRequests env p

/-- Witness for C3 on the concrete 404-metadata environment. -/
theorem claim_C3_witness :
    envMeta404.metaRes = .resolve { status := 404, data := { description := none, stargazers_count := 0 } } ∧
    ((run (some inputOkRec) envMeta404).result = .error .repoNotFound ∧
     Request.meta ∈ (run (some inputOkRec) envMeta404).requests ∧
     Request.languages ∈ (run (some inputOkRec) envMeta404).requests ∧
     Request.readme ∈ (run (some inputOkRec) envMeta404).requests ∧
     Request.tree "main" ∈ (run (some inputOkRec) envMeta404).requests ∧
     Request.pkg ∈ (run (some inputOkRec) envMeta404).requests ∧
     ∀ p, Request.ai p ∉ (run (some inputOkRec) envMeta404).requests) :=
  ⟨rfl, claim_C3 inputOkRec envMeta404 (by decide) rfl rfl "acme" "widget" rfl
    _ rfl rfl _ rfl _ rfl _ rfl _ rfl⟩

/-! ## Claim C4 -/

theorem contentOf_non200 (r : Response ContentData) (h : r.status ≠ 200) : contentOf r = "" := by
  have hb : (r.status == 200) = false := by simpa using h
  simp [contentOf, hb]

/-- Claim C4 counterexample: a languages response with status 404 and
GitHub's error body is propagated verbatim into the `languages` field
of the output record, instead of being treated as absent. -/
theorem claim_C4_counterexample :
    (run inputOk envLang404).result = .ok [{
      repo := "acme/widget", description := "No description provided", stars := 3,
      languages := .obj [("message", .str "Not Found"),
                         ("documentation_url", .str "https://docs.github.com/rest")],
      file_tree := [],
      purpose := some (.str "AI JSON Parsing Failed. See raw log."),
      tech_stack := some (.str "Unknown"), architecture_summary := some (.str "Unknown"),
      complexity_score := some (.num 0) }] ∧
    Json.obj [("message", .str "Not Found"),
              ("documentation_url", .str "https://docs.github.com/rest")] ≠ Json.obj [] := by
  exact ⟨by decide, by decide⟩

/-- Claim C4 (corrected): for secondary responses with a non-success
status below 500 the run raises no error; the README and manifest
payloads are treated as absent (empty string), and the file tree is
empty whenever the response body has no `tree` field — but the
languages response body is forwarded verbatim into the output record
whatever its status, rather than being treated as absent. -/
theorem claim_C4_amended (inp : Input) (env : Env)
    (hk : inp.geminiApiKey ≠ some "TEST_MODE")
    (hru : falsyOpt inp.repoUrl = false) (hgk : falsyOpt inp.geminiApiKey = false)
    (owner repo : String) (hurl : parseGithubUrl (inp.repoUrl.getD "") = some (owner, repo))
    (mR : Response MetaData) (hm : env.metaRes = .resolve mR) (hm404 : mR.status ≠ 404)
    (lR : Response Json) (hl : env.langRes = .resolve lR)
    (rR : Response ContentData) (hr : env.readmeRes = .resolve rR) (hrs : rR.status ≠ 200)
    (tR : Response TreeData) (ht : treeJoin env.treeMainRes env.treeMasterRes = .resolve tR)
    (htr : tR.data.tree = none)
    (pR : Response ContentData) (hp : env.pkgRes = .resolve pR) (hps : pR.status ≠ 200)
    (t : String) (hai : env.aiRes = some t) (hnn : aiData t ≠ Json.null) :
    Request.ai (buildPrompt "" "" []) ∈ (run (some inp) env).requests ∧
    ∃ rec, (run (some inp) env).result = .ok [rec] ∧
      rec.file_tree = [] ∧ rec.languages = lR.data := by
  have htOf : treeOf tR = [] := by simp [treeOf, htr]
  rw [run_resolved inp env hk hru hgk owner repo hurl mR hm hm404 lR hl rR hr tR ht pR hp
    t hai hnn]
  constructor
  · simp [contentOf_non200 rR hrs, contentOf_non200 pR hps, htOf]
  · exact ⟨_, rfl, by simp [mkRecord, htOf], by simp [mkRecord]⟩

/-- Witness for the amended C4 on the concrete environment. -/
theorem claim_C4_witness :
    envLang404.readmeRes = .resolve { status := 404, data := { content := none } } ∧
    (Request.ai (buildPrompt "" "" []) ∈ (run (some inputOkRec) envLang404).requests ∧
     ∃ rec, (run (some inputOkRec) envLang404).result = .ok [rec] ∧
       rec.file_tree = [] ∧
       rec.languages = .obj [("message", .str "Not Found"),
                             ("documentation_url", .str "https://docs.github.com/rest")]) :=
  ⟨rfl, claim_C4_amended inputOkRec envLang404 (by decide) rfl rfl "acme" "widget" rfl
    _ rfl (by decide) _ rfl _ rfl (by decide) _ rfl rfl _ rfl (by decide) "ok" rfl (by decide)⟩

/-! ## Claim C7 -/

/-- The prompt depends on its inputs only through their truncations:
manifest text to 5000 characters, README text to 15000 characters,
file-tree list to 300 entries. -/
theorem buildPrompt_truncates (pc rc : String) (ts : List String) :
    buildPrompt pc rc ts = buildPrompt (jsSlice pc 5000) (jsSlice rc 15000) (ts.take 300) := by
  have h1 : jsSlice (jsSlice rc 15000) 15000 = jsSlice rc 15000 := by
    simp [jsSlice, List.take_take]
  have h2 : (ts.take 300).take 300 = ts.take 300 := by simp [List.take_take]
  by_cases h : pc = ""
  · subst h
    have e1 : jsSlice ("" : String) 5000 = "" := rfl
    unfold buildPrompt
    rw [e1, h1, h2]
    simp
  · have hd : pc.data ≠ [] := fun hc => h (by cases pc; simp_all)
    have hne : jsSlice pc 5000 ≠ "" := by
      simp only [jsSlice]
      intro hc
      have h0 : pc.data.take 5000 = [] := by
        have := congrArg String.data hc
        simpa using this
      rcases List.take_eq_nil_iff.mp h0 with h0 | h0
      · exact absurd h0 (by norm_num)
      · exact hd h0
    have h3 : jsSlice (jsSlice pc 5000) 5000 = jsSlice pc 5000 := by
      simp [jsSlice, List.take_take]
    unfold buildPrompt
    rw [if_neg (by simp [h] : ¬((pc == "") = true)),
        if_neg (by simp [hne] : ¬((jsSlice pc 5000 == "") = true)), h3, h1, h2]

/-- Claim C7 (confirmed): the prompt embeds the manifest truncated to
5000 characters, the README truncated to 15000 characters and the
filtered file tree truncated to 300 entries — the prompt is invariant
under pre-truncating its inputs to those budgets — while the emitted
record's `file_tree` carries the full untruncated filtered list. -/
theorem claim_C7 (inp : Input) (env : Env)
    (hk : inp.geminiApiKey ≠ some "TEST_MODE")
    (hru : falsyOpt inp.repoUrl = false) (hgk : falsyOpt inp.geminiApiKey = false)
    (owner repo : String) (hurl : parseGithubUrl (inp.repoUrl.getD "") = some (owner, repo))
    (mR : Response MetaData) (hm : env.metaRes = .resolve mR) (hm404 : mR.status ≠ 404)
    (lR : Response Json) (hl : env.langRes = .resolve lR)
    (rR : Response ContentData) (hr : env.readmeRes = .resolve rR)
    (tR : Response TreeData) (ht : treeJoin env.treeMainRes env.treeMasterRes = .resolve tR)
    (pR : Response ContentData) (hp : env.pkgRes = .resolve pR)
    (t : String) (hai : env.aiRes = some t) (hnn : aiData t ≠ Json.null) :
    Request.ai (buildPrompt (contentOf pR) (contentOf rR) (treeOf tR))
        ∈ (run (some inp) env).requests ∧
    (∀ pc rc ts, buildPrompt pc rc ts
        = buildPrompt (jsSlice pc 5000) (jsSlice rc 15000) (ts.take 300)) ∧
    ∃ rec, (run (some inp) env).result = .ok [rec] ∧ rec.file_tree = treeOf tR := by
  rw [run_resolved inp env hk hru hgk owner repo hurl mR hm hm404 lR hl rR hr tR ht pR hp
    t hai hnn]
  exact ⟨by simp, buildPrompt_truncates, _, rfl, rfl⟩

/-- Witness for C7 on the concrete environment. -/
theorem claim_C7_witness :
    envParseFail.aiRes = some "This is not JSON" ∧
    (Request.ai (buildPrompt (contentOf { status := 404, data := { content := none } })
        (contentOf { status := 404, data := { content := none } })
        (treeOf { status := 200, data := { tree := some [⟨"blob", "src/main.ts"⟩] } }))
        ∈ (run (some inputOkRec) envParseFail).requests ∧
     (∀ pc rc ts, buildPrompt pc rc ts
        = buildPrompt (jsSlice pc 5000) (jsSlice rc 15000) (ts.take 300)) ∧
     ∃ rec, (run (some inputOkRec) envParseFail).result = .ok [rec] ∧
       rec.file_tree = treeOf { status := 200, data := { tree := some [⟨"blob", "src/main.ts"⟩] } }) :=
  ⟨rfl, claim_C7 inputOkRec envParseFail (by decide) rfl rfl "acme" "widget" rfl
    _ rfl (by decide) _ rfl _ rfl _ rfl _ rfl "This is not JSON" rfl (by decide)⟩

/-! ## Claim C8 -/

/-- Claim C8 counterexample: for the fenced AI response setting only
`purpose`, the emitted record has `purpose = "X"` but its unspecified
AI fields are absent (`undefined`), not the preset defaults
`"Unknown"`/`0`: the parsed object replaces the default object
wholesale. -/
theorem claim_C8_counterexample :
    (run inputOk envFencedPurpose).result = .ok [{
      repo := "acme/widget", description := "A tool", stars := 5,
      languages := .obj [("TypeScript", .num 100)], file_tree := ["src/main.ts"],
      purpose := some (.str "X"), tech_stack := none, architecture_summary := none,
      complexity_score := none }] ∧
    (none : Option Json) ≠ some (.str "Unknown") ∧
    (none : Option Json) ≠ some (.num 0) := by
  exact ⟨by decide, by simp, by simp⟩

/-- Claim C8 (corrected): when the stripped and trimmed AI response
parses as a JSON value `v` (other than `null`), each AI field of the
output record is the property read of `v` at that field name — so for
the fenced response setting only `purpose` to `"X"` the record has
`purpose = "X"` and the unspecified fields are absent/undefined, not
the preset defaults. -/
theorem claim_C8_amended (inp : Input) (env : Env)
    (hk : inp.geminiApiKey ≠ some "TEST_MODE")
    (hru : falsyOpt inp.repoUrl = false) (hgk : falsyOpt inp.geminiApiKey = false)
    (owner repo : String) (hurl : parseGithubUrl (inp.repoUrl.getD "") = some (owner, repo))
    (mR : Response MetaData) (hm : env.metaRes = .resolve mR) (hm404 : mR.status ≠ 404)
    (lR : Response Json) (hl : env.langRes = .resolve lR)
    (rR : Response ContentData) (hr : env.readmeRes = .resolve rR)
    (tR : Response TreeData) (ht : treeJoin env.treeMainRes env.treeMasterRes = .resolve tR)
    (pR : Response ContentData) (hp : env.pkgRes = .resolve pR)
    (t : String) (hai : env.aiRes = some t)
    (v : Json) (hparse : parseJsonText (cleanAiText t) = some v) (hv : v ≠ Json.null) :
    ∃ rec, (run (some inp) env).result = .ok [rec] ∧
      rec.purpose = v.getField "purpose" ∧
      rec.tech_stack = v.getField "tech_stack" ∧
      rec.architecture_summary = v.getField "architecture_summary" ∧
      rec.complexity_score = v.getField "complexity_score" := by
  have hdata : aiData t = v := by unfold aiData; rw [hparse]
  have hnn : aiData t ≠ Json.null := by rw [hdata]; exact hv
  rw [run_resolved inp env hk hru hgk owner repo hurl mR hm hm404 lR hl rR hr tR ht pR hp
    t hai hnn]
  exact ⟨_, rfl, by simp [mkRecord, hdata], by simp [mkRecord, hdata],
    by simp [mkRecord, hdata], by simp [mkRecord, hdata]⟩

/-- Witness for the amended C8 on the concrete fenced response. -/
theorem claim_C8_witness :
    parseJsonText (cleanAiText "```json\n\x7b\"purpose\":\"X\"\x7d\n```")
      = some (.obj [("purpose", .str "X")]) ∧
    ∃ rec, (run (some inputOkRec) envFencedPurpose).result = .ok [rec] ∧
      rec.purpose = Json.getField (.obj [("purpose", .str "X")]) "purpose" ∧
      rec.tech_stack = Json.getField (.obj [("purpose", .str "X")]) "tech_stack" ∧
      rec.architecture_summary = Json.getField (.obj [("purpose", .str "X")]) "architecture_summary" ∧
      rec.complexity_score = Json.getField (.obj [("purpose", .str "X")]) "complexity_score" :=
  ⟨by decide, claim_C8_amended inputOkRec envFencedPurpose (by decide) rfl rfl "acme" "widget" rfl
    _ rfl (by decide) _ rfl _ rfl _ rfl _ rfl "```json\n\x7b\"purpose\":\"X\"\x7d\n```" rfl
    (.obj [("purpose", .str "X")]) (by decide) (by simp)⟩

/-! ## Claim C10: the global stripper cannot break a valid JSON response

The development below proves that stripping the fence markers from a
successfully parsing JSON text yields a text that still parses: every
fence-marker occurrence of a valid JSON text lies inside a string
literal, and deleting it leaves a valid string literal.  This refutes
the parse-failure consequence asserted by C10. -/

theorem fenceJson_eq : fenceJson = [backtick, backtick, backtick, 'j', 's', 'o', 'n'] := by
  decide

theorem fencePlain_eq : fencePlain = [backtick, backtick, backtick] := by decide

/-- Fuel beyond the length of the input does not change `stripFencesGo`. -/
theorem stripFencesGo_eq (n : Nat) : ∀ (cs : List Char), cs.length ≤ n → ∀ fuel,
    cs.length ≤ fuel → stripFencesGo fuel cs = stripFencesGo cs.length cs := by
  induction n with
  | zero =>
    intro cs hcs fuel _
    have h : cs = [] := List.length_eq_zero.mp (Nat.le_zero.mp hcs)
    subst h
    cases fuel <;> rfl
  | succ n ih =>
    intro cs hcs fuel hf
    cases cs with
    | nil => cases fuel <;> rfl
    | cons c rest =>
      cases fuel with
      | zero => simp at hf
      | succ f =>
        show stripFencesGo (f + 1) (c :: rest) = stripFencesGo (rest.length + 1) (c :: rest)
        simp only [stripFencesGo]
        by_cases h7 : fenceJson.isPrefixOf (c :: rest) = true
        · rw [if_pos h7, if_pos h7]
          rw [ih ((c :: rest).drop 7) (by simp only [List.length_drop, List.length_cons] at hcs ⊢; omega)
                f (by simp only [List.length_drop, List.length_cons] at hf ⊢; omega),
              ih ((c :: rest).drop 7) (by simp only [List.length_drop, List.length_cons] at hcs ⊢; omega)
                rest.length (by simp only [List.length_drop, List.length_cons]; omega)]
        · rw [if_neg h7, if_neg h7]
          by_cases h3 : fencePlain.isPrefixOf (c :: rest) = true
          · rw [if_pos h3, if_pos h3]
            rw [ih ((c :: rest).drop 3) (by simp only [List.length_drop, List.length_cons] at hcs ⊢; omega)
                  f (by simp only [List.length_drop, List.length_cons] at hf ⊢; omega),
                ih ((c :: rest).drop 3) (by simp only [List.length_drop, List.length_cons] at hcs ⊢; omega)
                  rest.length (by simp only [List.length_drop, List.length_cons]; omega)]
          · rw [if_neg h3, if_neg h3]
            rw [ih rest (by simp at hcs; omega) f (by simp at hf; omega)]

theorem stripFencesGo_eq_strip (fuel : Nat) (cs : List Char) (h : cs.length ≤ fuel) :
    stripFencesGo fuel cs = stripFences cs :=
  stripFencesGo_eq cs.length cs le_rfl fuel h

theorem stripFences_eq7 {cs : List Char} (h : fenceJson.isPrefixOf cs = true) :
    stripFences cs = stripFences (cs.drop 7) := by
  cases cs with
  | nil => rw [fenceJson_eq] at h; simp [List.isPrefixOf] at h
  | cons c rest =>
    show stripFencesGo (rest.length + 1) (c :: rest) = _
    simp only [stripFencesGo]
    rw [if_pos h]
    exact stripFencesGo_eq_strip rest.length _
      (by simp only [List.length_drop, List.length_cons]; omega)

theorem stripFences_eq3 {cs : List Char} (h7 : fenceJson.isPrefixOf cs = false)
    (h3 : fencePlain.isPrefixOf cs = true) :
    stripFences cs = stripFences (cs.drop 3) := by
  cases cs with
  | nil => rw [fencePlain_eq] at h3; simp [List.isPrefixOf] at h3
  | cons c rest =>
    show stripFencesGo (rest.length + 1) (c :: rest) = _
    simp only [stripFencesGo]
    rw [if_neg (by simp [h7]), if_pos h3]
    exact stripFencesGo_eq_strip rest.length _
      (by simp only [List.length_drop, List.length_cons]; omega)

theorem stripFences_cons {c : Char} {rest : List Char}
    (h7 : fenceJson.isPrefixOf (c :: rest) = false)
    (h3 : fencePlain.isPrefixOf (c :: rest) = false) :
    stripFences (c :: rest) = c :: stripFences rest := by
  show stripFencesGo (rest.length + 1) (c :: rest) = _
  simp only [stripFencesGo]
  rw [if_neg (by simp [h7]), if_neg (by simp [h3])]
  rfl

theorem isPrefixOf_head7 {c : Char} {rest : List Char}
    (h : fenceJson.isPrefixOf (c :: rest) = true) : c = backtick := by
  have hp := List.isPrefixOf_iff_prefix.mp h
  rw [fenceJson_eq] at hp
  rcases hp with ⟨t, ht⟩
  simp only [List.cons_append] at ht
  exact (List.cons.injEq _ _ _ _ ▸ ht).1.symm

theorem isPrefixOf_head3 {c : Char} {rest : List Char}
    (h : fencePlain.isPrefixOf (c :: rest) = true) : c = backtick := by
  have hp := List.isPrefixOf_iff_prefix.mp h
  rw [fencePlain_eq] at hp
  rcases hp with ⟨t, ht⟩
  simp only [List.cons_append] at ht
  exact (List.cons.injEq _ _ _ _ ▸ ht).1.symm

theorem stripFences_cons_of_ne {c : Char} {rest : List Char} (hc : c ≠ backtick) :
    stripFences (c :: rest) = c :: stripFences rest := by
  apply stripFences_cons
  · cases hb : fenceJson.isPrefixOf (c :: rest)
    · rfl
    · exact absurd (isPrefixOf_head7 hb) hc
  · cases hb : fencePlain.isPrefixOf (c :: rest)
    · rfl
    · exact absurd (isPrefixOf_head3 hb) hc

/-- Stripping distributes over a backtick-free prefix. -/
theorem stripFences_append_clean {p : List Char} (r : List Char)
    (hp : ∀ c ∈ p, c ≠ backtick) :
    stripFences (p ++ r) = p ++ stripFences r := by
  induction p with
  | nil => simp
  | cons c p ih =>
    rw [List.cons_append, stripFences_cons_of_ne (hp c (by simp)),
        ih (fun d hd => hp d (by simp [hd]))]
    rfl

theorem stripFences_nil : stripFences [] = [] := rfl

theorem stripFences_self {p : List Char} (hp : ∀ c ∈ p, c ≠ backtick) :
    stripFences p = p := by
  have h := @stripFences_append_clean p [] hp
  rw [List.append_nil, stripFences_nil, List.append_nil] at h
  exact h

theorem isPrefixOf_single7 (c : Char) : fenceJson.isPrefixOf [c] = false := by
  cases hb : fenceJson.isPrefixOf [c]
  · rfl
  · have := (List.isPrefixOf_iff_prefix.mp hb).length_le
    rw [fenceJson_eq] at this
    simp at this

theorem isPrefixOf_single3 (c : Char) : fencePlain.isPrefixOf [c] = false := by
  cases hb : fencePlain.isPrefixOf [c]
  · rfl
  · have := (List.isPrefixOf_iff_prefix.mp hb).length_le
    rw [fencePlain_eq] at this
    simp at this

theorem stripFences_single (c : Char) : stripFences [c] = [c] := by
  rw [stripFences_cons (isPrefixOf_single7 c) (isPrefixOf_single3 c), stripFences_nil]

/-- A fence-marker prefix of an extended list is a prefix of the core
when the core is long enough. -/
theorem prefix_within {q z : List Char} {r : List Char}
    (h : z <+: q ++ r) (hlen : z.length ≤ q.length) : z <+: q := by
  have h2 := List.prefix_iff_eq_take.mp h
  rw [List.take_append_of_le_length hlen] at h2
  rw [h2]
  exact List.take_prefix _ _

theorem bool_eq_false {b : Bool} (h : ¬ b = true) : b = false := by
  cases b
  · rfl
  · exact absurd rfl h

/-- Fence stripping splits at a boundary whose last character can
neither end nor continue a fence-marker match. -/
theorem stripFences_append_safeEnd (n : Nat) :
    ∀ (p : List Char), p.length ≤ n → ∀ (c : Char) (r : List Char), safeEnd c →
    stripFences ((p ++ [c]) ++ r) = stripFences (p ++ [c]) ++ stripFences r := by
  induction n with
  | zero =>
    intro p hp c r hc
    have h : p = [] := List.length_eq_zero.mp (Nat.le_zero.mp hp)
    subst h
    simp only [List.nil_append, List.singleton_append]
    rw [stripFences_single c]
    cases hb7 : fenceJson.isPrefixOf (c :: r)
    · cases hb3 : fencePlain.isPrefixOf (c :: r)
      · rw [stripFences_cons hb7 hb3]; rfl
      · exact absurd (isPrefixOf_head3 hb3) hc.1
    · exact absurd (isPrefixOf_head7 hb7) hc.1
  | succ n ih =>
    intro p hp c r hc
    by_cases h7 : fenceJson.isPrefixOf ((p ++ [c]) ++ r) = true
    · have hpre : fenceJson <+: (p ++ [c]) ++ r := List.isPrefixOf_iff_prefix.mp h7
      by_cases hlen : 7 ≤ p.length
      · have hin : fenceJson <+: p := by
          apply @prefix_within _ _ ([c] ++ r) _ (by rw [fenceJson_eq]; simpa using hlen)
          rwa [List.append_assoc] at hpre
        have h7p : fenceJson.isPrefixOf (p ++ [c]) = true :=
          List.isPrefixOf_iff_prefix.mpr (hin.trans (List.prefix_append p [c]))
        rw [stripFences_eq7 h7, stripFences_eq7 h7p,
            List.append_assoc, List.drop_append_of_le_length hlen,
            List.drop_append_of_le_length hlen, ← List.append_assoc]
        exact ih (p.drop 7) (by simp; omega) c r hc
      · have hsub : (p ++ [c]) <+: fenceJson := by
          apply List.prefix_of_prefix_length_le (List.prefix_append _ _) hpre
          rw [fenceJson_eq]; simp; omega
        have hmem : c ∈ fenceJson := hsub.subset (by simp)
        rw [fenceJson_eq] at hmem
        rcases hc with ⟨hb, hj, hs, ho, hn⟩
        simp at hmem
        rcases hmem with h | h | h | h | h <;> simp_all
    · by_cases h3 : fencePlain.isPrefixOf ((p ++ [c]) ++ r) = true
      · have hpre : fencePlain <+: (p ++ [c]) ++ r := List.isPrefixOf_iff_prefix.mp h3
        by_cases hlen : 3 ≤ p.length
        · have hin : fencePlain <+: p := by
            apply @prefix_within _ _ ([c] ++ r) _ (by rw [fencePlain_eq]; simpa using hlen)
            rwa [List.append_assoc] at hpre
          have h3p : fencePlain.isPrefixOf (p ++ [c]) = true :=
            List.isPrefixOf_iff_prefix.mpr (hin.trans (List.prefix_append p [c]))
          have h7p : fenceJson.isPrefixOf (p ++ [c]) = false := by
            apply bool_eq_false
            intro hb
            exact h7 (List.isPrefixOf_iff_prefix.mpr
              ((List.isPrefixOf_iff_prefix.mp hb).trans (List.prefix_append (p ++ [c]) r)))
          rw [stripFences_eq3 (bool_eq_false h7) h3, stripFences_eq3 h7p h3p,
              List.append_assoc, List.drop_append_of_le_length hlen,
              List.drop_append_of_le_length hlen, ← List.append_assoc]
          exact ih (p.drop 3) (by simp; omega) c r hc
        · have hsub : (p ++ [c]) <+: fencePlain := by
            apply List.prefix_of_prefix_length_le (List.prefix_append _ _) hpre
            rw [fencePlain_eq]; simp; omega
          have hmem : c ∈ fencePlain := hsub.subset (by simp)
          rw [fencePlain_eq] at hmem
          simp at hmem
          exact absurd hmem hc.1
      · cases p with
        | nil =>
          simp only [List.nil_append, List.singleton_append] at h7 h3 ⊢
          rw [stripFences_single c]
          rw [stripFences_cons (bool_eq_false h7) (bool_eq_false h3)]
          rfl
        | cons d p₂ =>
          have e1 : ((d :: p₂ ++ [c]) ++ r) = d :: ((p₂ ++ [c]) ++ r) := by simp
          have e2 : (d :: p₂ ++ [c]) = d :: (p₂ ++ [c]) := by simp
          rw [e1] at h7 h3
          have h7pp : fenceJson.isPrefixOf (d :: (p₂ ++ [c])) = false := by
            apply bool_eq_false
            intro hb
            apply h7
            apply List.isPrefixOf_iff_prefix.mpr
            have h0 := (List.isPrefixOf_iff_prefix.mp hb).trans
              (List.prefix_append (d :: (p₂ ++ [c])) r)
            simpa using h0
          have h3pp : fencePlain.isPrefixOf (d :: (p₂ ++ [c])) = false := by
            apply bool_eq_false
            intro hb
            apply h3
            apply List.isPrefixOf_iff_prefix.mpr
            have h0 := (List.isPrefixOf_iff_prefix.mp hb).trans
              (List.prefix_append (d :: (p₂ ++ [c])) r)
            simpa using h0
          rw [e1, e2, stripFences_cons (bool_eq_false h7) (bool_eq_false h3),
              stripFences_cons h7pp h3pp]
          rw [ih p₂ (by simp at hp; omega) c r hc]
          rfl

/-- A final character that cannot complete a fence marker survives
stripping in place. -/
theorem stripFences_append_last (n : Nat) :
    ∀ (p : List Char), p.length ≤ n → ∀ (d : Char), d ≠ backtick → d ≠ 'n' →
    stripFences (p ++ [d]) = stripFences p ++ [d] := by
  induction n with
  | zero =>
    intro p hp d hb hn
    have h : p = [] := List.length_eq_zero.mp (Nat.le_zero.mp hp)
    subst h
    rw [List.nil_append, stripFences_single d, stripFences_nil, List.nil_append]
  | succ n ih =>
    intro p hp d hb hn
    by_cases h7 : fenceJson.isPrefixOf (p ++ [d]) = true
    · have hpre : fenceJson <+: p ++ [d] := List.isPrefixOf_iff_prefix.mp h7
      have hlen7 : 7 ≤ p.length + 1 := by
        have := hpre.length_le
        rw [fenceJson_eq] at this
        simpa using this
      by_cases hlen : 7 ≤ p.length
      · have hin : fenceJson <+: p := prefix_within hpre (by rw [fenceJson_eq]; simpa using hlen)
        have h7p : fenceJson.isPrefixOf p = true := List.isPrefixOf_iff_prefix.mpr hin
        rw [stripFences_eq7 h7, stripFences_eq7 h7p, List.drop_append_of_le_length hlen]
        exact ih (p.drop 7) (by simp; omega) d hb hn
      · have hplen : p.length = 6 := by omega
        have heq : fenceJson = p ++ [d] :=
          hpre.eq_of_length (by rw [fenceJson_eq]; simp [hplen])
        have : some 'n' = some d := by
          rw [show some 'n' = fenceJson.getLast? by rw [fenceJson_eq]; rfl, heq,
              List.getLast?_concat]
        exact absurd (Option.some.injEq _ _ ▸ this).symm hn
    · by_cases h3 : fencePlain.isPrefixOf (p ++ [d]) = true
      · have hpre : fencePlain <+: p ++ [d] := List.isPrefixOf_iff_prefix.mp h3
        have hlen3 : 3 ≤ p.length + 1 := by
          have := hpre.length_le
          rw [fencePlain_eq] at this
          simpa using this
        by_cases hlen : 3 ≤ p.length
        · have hin : fencePlain <+: p :=
            prefix_within hpre (by rw [fencePlain_eq]; simpa using hlen)
          have h3p : fencePlain.isPrefixOf p = true := List.isPrefixOf_iff_prefix.mpr hin
          have h7p : fenceJson.isPrefixOf p = false := by
            apply bool_eq_false
            intro hbp
            exact h7 (List.isPrefixOf_iff_prefix.mpr
              ((List.isPrefixOf_iff_prefix.mp hbp).trans (List.prefix_append p [d])))
          rw [stripFences_eq3 (bool_eq_false h7) h3, stripFences_eq3 h7p h3p,
              List.drop_append_of_le_length hlen]
          exact ih (p.drop 3) (by simp; omega) d hb hn
        · have hplen : p.length = 2 := by omega
          have heq : fencePlain = p ++ [d] :=
            hpre.eq_of_length (by rw [fencePlain_eq]; simp [hplen])
          have : some backtick = some d := by
            rw [show some backtick = fencePlain.getLast? by rw [fencePlain_eq]; rfl, heq,
                List.getLast?_concat]
          exact absurd (Option.some.injEq _ _ ▸ this).symm hb
      · cases p with
        | nil =>
          rw [List.nil_append, stripFences_single d, stripFences_nil, List.nil_append]
        | cons c p₂ =>
          have e1 : (c :: p₂ ++ [d]) = c :: (p₂ ++ [d]) := by simp
          rw [e1] at h7 h3
          have h7p : fenceJson.isPrefixOf (c :: p₂) = false := by
            apply bool_eq_false
            intro hbp
            apply h7
            apply List.isPrefixOf_iff_prefix.mpr
            have h0 := (List.isPrefixOf_iff_prefix.mp hbp).trans
              (List.prefix_append (c :: p₂) [d])
            simpa using h0
          have h3p : fencePlain.isPrefixOf (c :: p₂) = false := by
            apply bool_eq_false
            intro hbp
            apply h3
            apply List.isPrefixOf_iff_prefix.mpr
            have h0 := (List.isPrefixOf_iff_prefix.mp hbp).trans
              (List.prefix_append (c :: p₂) [d])
            simpa using h0
          rw [e1, stripFences_cons (bool_eq_false h7) (bool_eq_false h3),
              stripFences_cons h7p h3p]
          rw [ih p₂ (by simp at hp; omega) d hb hn]
          rfl

/-! ### Whitespace-skipping facts and fuel monotonicity of the parser -/

theorem skipWs_ws_append {ws : List Char} (h : ∀ c ∈ ws, isJsonWs c = true) (cs : List Char) :
    skipWs (ws ++ cs) = skipWs cs :=
  List.dropWhile_append_of_pos h

theorem skipWs_cons_neg {c : Char} {cs : List Char} (h : isJsonWs c = false) :
    skipWs (c :: cs) = c :: cs := by
  simp [skipWs, List.dropWhile_cons, h]

theorem skipWs_decomp (cs : List Char) :
    ∃ ws, cs = ws ++ skipWs cs ∧ ∀ c ∈ ws, isJsonWs c = true :=
  ⟨cs.takeWhile isJsonWs, (List.takeWhile_append_dropWhile _ _).symm,
    fun _ hc => List.mem_takeWhile_imp hc⟩

/-- `parseValue` depends on its input only through `skipWs`. -/
theorem parseValue_skipWs {cs₁ cs₂ : List Char} (h : skipWs cs₁ = skipWs cs₂) (f : Nat) :
    parseValue f cs₁ = parseValue f cs₂ := by
  cases f with
  | zero => rfl
  | succ f => simp only [parseValue, h]

theorem parseElems_skipWs {cs₁ cs₂ : List Char} (h : skipWs cs₁ = skipWs cs₂) (f : Nat) :
    parseElems f cs₁ = parseElems f cs₂ := by
  cases f with
  | zero => rfl
  | succ f => simp only [parseElems, parseValue_skipWs h]

/-- The step equation of the string-body parser on a plain character. -/
theorem parseStrChars_step (f : Nat) {c : Char} (rest : List Char) (h1 : c ≠ '"')
    (h2 : c ≠ '\\') (h3 : ¬(c.toNat < 0x20)) :
    parseStrChars (f + 1) (c :: rest)
      = (fun p => (c :: p.1, p.2)) <$> parseStrChars f rest := by
  simp only [parseStrChars]
  rw [if_neg (by simp [h1]), if_neg (by simp [h2]), if_neg h3]

/-- A successful string-body parse also succeeds at any fuel beyond the
input length. -/
theorem parseStrChars_fuel : ∀ (f : Nat) (cs : List Char) (x : List Char × List Char),
    parseStrChars f cs = some x → ∀ g, cs.length + 1 ≤ g → parseStrChars g cs = some x := by
  intro f
  induction f using Nat.strong_induction_on with
  | _ f ih =>
    intro cs x h g hg
    cases f with
    | zero => simp [parseStrChars] at h
    | succ f =>
      cases cs with
      | nil => simp [parseStrChars] at h
      | cons c rest =>
        obtain ⟨g', rfl⟩ : ∃ g', g = g' + 1 := ⟨g - 1, by omega⟩
        have hrg : rest.length + 1 ≤ g' := by simp at hg; omega
        by_cases hq : (c == '"') = true
        · simp only [parseStrChars, if_pos hq] at h ⊢
          exact h
        · by_cases hbs : (c == '\\') = true
          · simp only [parseStrChars, if_neg hq, if_pos hbs] at h ⊢
            cases rest with
            | nil => exact absurd h (by simp)
            | cons e rest2 =>
              by_cases hu : (e == 'u') = true
              · simp only [if_pos hu] at h ⊢
                cases rest2 with
                | nil => exact absurd h (by simp)
                | cons h1 t1 =>
                  cases t1 with
                  | nil => exact absurd h (by simp)
                  | cons h2 t2 =>
                    cases t2 with
                    | nil => exact absurd h (by simp)
                    | cons h3 t3 =>
                      cases t3 with
                      | nil => exact absurd h (by simp)
                      | cons h4 rest3 =>
                        dsimp only at h ⊢
                        cases hv1 : hexVal h1 with
                        | none => rw [hv1] at h; exact absurd h (by simp)
                        | some a =>
                          cases hv2 : hexVal h2 with
                          | none => rw [hv1, hv2] at h; exact absurd h (by simp)
                          | some b =>
                            cases hv3 : hexVal h3 with
                            | none => rw [hv1, hv2, hv3] at h; exact absurd h (by simp)
                            | some c2 =>
                              cases hv4 : hexVal h4 with
                              | none =>
                                rw [hv1, hv2, hv3, hv4] at h; exact absurd h (by simp)
                              | some d =>
                                simp only [hv1, hv2, hv3, hv4] at h ⊢
                                rw [Option.map_eq_map, Option.map_eq_some'] at h
                                obtain ⟨p', hp', hx⟩ := h
                                rw [Option.map_eq_map, Option.map_eq_some']
                                refine ⟨p', ?_, hx⟩
                                exact ih f (by omega) rest3 p' hp' g'
                                  (by simp at hg hrg ⊢; omega)
              · simp only [if_neg hu] at h ⊢
                cases he : escChar e with
                | none => rw [he] at h; exact absurd h (by simp)
                | some ec =>
                  simp only [he] at h
                  dsimp only at h ⊢
                  rw [Option.map_eq_map, Option.map_eq_some'] at h
                  obtain ⟨p', hp', hx⟩ := h
                  rw [Option.map_eq_map, Option.map_eq_some']
                  refine ⟨p', ?_, hx⟩
                  exact ih f (by omega) rest2 p' hp' g' (by simp at hrg ⊢; omega)
          · by_cases hctrl : c.toNat < 0x20
            · simp only [parseStrChars, if_neg hq, if_neg hbs, if_pos hctrl] at h
              exact absurd h (by simp)
            · rw [parseStrChars_step f rest (by simpa using hq) (by simpa using hbs) hctrl] at h
              rw [parseStrChars_step g' rest (by simpa using hq) (by simpa using hbs) hctrl]
              rw [Option.map_eq_map, Option.map_eq_some'] at h
              obtain ⟨p', hp', hx⟩ := h
              rw [Option.map_eq_map, Option.map_eq_some']
              exact ⟨p', ih f (by omega) rest p' hp' g' hrg, hx⟩

/-- The string-body parser consumes at least the closing quote. -/
theorem parseStrChars_consume : ∀ (f : Nat) (cs : List Char) (x : List Char × List Char),
    parseStrChars f cs = some x → x.2 <:+ cs ∧ x.2.length < cs.length := by
  intro f
  induction f using Nat.strong_induction_on with
  | _ f ih =>
    intro cs x h
    cases f with
    | zero => simp [parseStrChars] at h
    | succ f =>
      cases cs with
      | nil => simp [parseStrChars] at h
      | cons c rest =>
        by_cases hq : (c == '"') = true
        · simp only [parseStrChars, if_pos hq] at h
          obtain ⟨rfl⟩ : x = ([], rest) := by cases h; rfl
          exact ⟨List.suffix_cons c rest, by simp⟩
        · by_cases hbs : (c == '\\') = true
          · simp only [parseStrChars, if_neg hq, if_pos hbs] at h
            cases rest with
            | nil => exact absurd h (by simp)
            | cons e rest2 =>
              by_cases hu : (e == 'u') = true
              · simp only [if_pos hu] at h
                cases rest2 with
                | nil => exact absurd h (by simp)
                | cons h1 t1 =>
                  cases t1 with
                  | nil => exact absurd h (by simp)
                  | cons h2 t2 =>
                    cases t2 with
                    | nil => exact absurd h (by simp)
                    | cons h3 t3 =>
                      cases t3 with
                      | nil => exact absurd h (by simp)
                      | cons h4 rest3 =>
                        dsimp only at h
                        cases hv1 : hexVal h1 with
                        | none => rw [hv1] at h; exact absurd h (by simp)
                        | some a =>
                          cases hv2 : hexVal h2 with
                          | none => rw [hv1, hv2] at h; exact absurd h (by simp)
                          | some b =>
                            cases hv3 : hexVal h3 with
                            | none => rw [hv1, hv2, hv3] at h; exact absurd h (by simp)
                            | some c2 =>
                              cases hv4 : hexVal h4 with
                              | none =>
                                rw [hv1, hv2, hv3, hv4] at h; exact absurd h (by simp)
                              | some d =>
                                simp only [hv1, hv2, hv3, hv4] at h
                                rw [Option.map_eq_map, Option.map_eq_some'] at h
                                obtain ⟨p', hp', hx⟩ := h
                                have hr := ih f (by omega) rest3 p' hp'
                                have hx2 : x.2 = p'.2 := by rw [← hx]
                                rw [hx2]
                                constructor
                                · exact hr.1.trans
                                    (List.suffix_append [c, e, h1, h2, h3, h4] rest3)
                                · have := hr.2
                                  simp only [List.length_cons]
                                  omega
              · simp only [if_neg hu] at h
                cases he : escChar e with
                | none => rw [he] at h; exact absurd h (by simp)
                | some ec =>
                  simp only [he] at h
                  rw [Option.map_eq_map, Option.map_eq_some'] at h
                  obtain ⟨p', hp', hx⟩ := h
                  have hr := ih f (by omega) rest2 p' hp'
                  have hx2 : x.2 = p'.2 := by rw [← hx]
                  rw [hx2]
                  constructor
                  · exact hr.1.trans (List.suffix_append [c, e] rest2)
                  · have := hr.2
                    simp only [List.length_cons]
                    omega
          · by_cases hctrl : c.toNat < 0x20
            · simp only [parseStrChars, if_neg hq, if_neg hbs, if_pos hctrl] at h
              exact absurd h (by simp)
            · rw [parseStrChars_step f rest (by simpa using hq) (by simpa using hbs) hctrl] at h
              rw [Option.map_eq_map, Option.map_eq_some'] at h
              obtain ⟨p', hp', hx⟩ := h
              have hr := ih f (by omega) rest p' hp'
              have hx2 : x.2 = p'.2 := by rw [← hx]
              rw [hx2]
              exact ⟨hr.1.trans (List.suffix_cons c rest), by
                have := hr.2; simp only [List.length_cons]; omega⟩

/-! ### Reparsing a number token in front of a different continuation -/

/-- The characters a number token can contain. -/
def numTailChar (c : Char) : Prop :=
  c = '.' ∨ c = 'e' ∨ c = 'E' ∨ c = '+' ∨ c = '-' ∨ isDigitChar c = true

/-- A digit run extends across an append exactly up to a non-digit head. -/
theorem takeWhile_digits_append {ds r2 : List Char} (hds : ∀ c ∈ ds, isDigitChar c = true)
    (hr2 : ∀ c, r2.head? = some c → isDigitChar c = false) :
    (ds ++ r2).takeWhile isDigitChar = ds := by
  rw [List.takeWhile_append]
  rw [List.takeWhile_eq_self_iff.mpr hds]
  rw [if_pos rfl]
  cases r2 with
  | nil => simp
  | cons c t =>
    rw [List.takeWhile_cons, if_neg (by simp [hr2 c rfl])]
    simp

theorem parseFrac_shape {cs : List Char} {fv fl : Nat} {r : List Char}
    (h : parseFrac cs = some (fv, fl, r)) :
    ∃ p, cs = p ++ r ∧ (∀ c ∈ p, c = '.' ∨ isDigitChar c = true) ∧
      (p = [] ∨ ∃ t, p = '.' :: t) ∧
      ∀ r2, (∀ c, r2.head? = some c → isDigitChar c = false ∧ c ≠ '.') →
        parseFrac (p ++ r2) = some (fv, fl, r2) := by
  unfold parseFrac at h
  split at h
  · next rest =>
    by_cases hds : (rest.takeWhile isDigitChar).isEmpty
    · rw [if_pos hds] at h
      exact absurd h (by simp)
    · rw [if_neg hds] at h
      obtain ⟨rfl, rfl, rfl⟩ : fv = digitsToNat (rest.takeWhile isDigitChar) ∧
          fl = (rest.takeWhile isDigitChar).length ∧
          r = rest.drop (rest.takeWhile isDigitChar).length := by
        cases h; exact ⟨rfl, rfl, rfl⟩
      set ds := rest.takeWhile isDigitChar with hdsdef
      have hdig : ∀ c ∈ ds, isDigitChar c = true := fun _ hc => List.mem_takeWhile_imp hc
      have hsplit : rest = ds ++ rest.dropWhile isDigitChar :=
        (List.takeWhile_append_dropWhile _ _).symm
      have hdropeq : rest.drop ds.length = rest.dropWhile isDigitChar := by
        conv_lhs => rw [hsplit]
        exact List.drop_left ds _
      refine ⟨'.' :: ds, ?_, ?_, Or.inr ⟨ds, rfl⟩, ?_⟩
      · rw [hdropeq]
        conv_lhs => rw [hsplit]
        rfl
      · intro c hc
        rcases List.mem_cons.mp hc with h | h
        · exact Or.inl h
        · exact Or.inr (hdig c h)
      · intro r2 hr2
        show parseFrac ('.' :: (ds ++ r2)) = _
        unfold parseFrac
        have htw : (ds ++ r2).takeWhile isDigitChar = ds :=
          takeWhile_digits_append hdig (fun c hc => (hr2 c hc).1)
        simp only [htw]
        rw [if_neg hds, List.drop_left ds r2]
  · next hne =>
    obtain ⟨rfl, rfl, rfl⟩ : fv = 0 ∧ fl = 0 ∧ r = cs := by cases h; exact ⟨rfl, rfl, rfl⟩
    refine ⟨[], rfl, by simp, Or.inl rfl, ?_⟩
    intro r2 hr2
    cases r2 with
    | nil => rfl
    | cons c t =>
      unfold parseFrac
      split
      · next rest heq =>
        have : c = '.' := by
          have := (List.cons.injEq _ _ _ _ ▸ heq).1
          exact this
        exact absurd this (hr2 c rfl).2
      · rfl

theorem parseExpSign_other {c : Char} {r : List Char} (h1 : c ≠ '+') (h2 : c ≠ '-') :
    parseExpSign (c :: r) = (1, c :: r) := by
  unfold parseExpSign
  split
  · next heq => exact absurd ((List.cons.injEq _ _ _ _ ▸ heq).1) h1
  · next heq => exact absurd ((List.cons.injEq _ _ _ _ ▸ heq).1) h2
  · rfl

/-- `parseExp` on an empty or exponent-free continuation. -/
theorem parseExp_trivial {r2 : List Char}
    (h : ∀ c, r2.head? = some c → c ≠ 'e' ∧ c ≠ 'E') : parseExp r2 = some (0, r2) := by
  cases r2 with
  | nil => rfl
  | cons c t =>
    unfold parseExp
    dsimp only
    rw [if_neg (by simp [(h c rfl).1, (h c rfl).2])]

theorem parseExp_shape {cs : List Char} {ex : Int} {r : List Char}
    (h : parseExp cs = some (ex, r)) :
    ∃ p, cs = p ++ r ∧ (∀ c ∈ p, numTailChar c) ∧
      (p = [] ∨ ∃ c t, p = c :: t ∧ (c = 'e' ∨ c = 'E')) ∧
      ∀ r2, (∀ c, r2.head? = some c → isDigitChar c = false ∧ c ≠ 'e' ∧ c ≠ 'E') →
        parseExp (p ++ r2) = some (ex, r2) := by
  cases cs with
  | nil =>
    obtain ⟨rfl, rfl⟩ : ex = 0 ∧ r = [] := by cases h; exact ⟨rfl, rfl⟩
    refine ⟨[], rfl, by simp, Or.inl rfl, ?_⟩
    intro r2 hr2
    exact parseExp_trivial (fun c hc => (hr2 c hc).2)
  | cons c rest =>
    by_cases he : (c == 'e' || c == 'E') = true
    · unfold parseExp at h
      dsimp only at h
      rw [if_pos he] at h
      obtain ⟨cs2, hcs2⟩ : ∃ x, (parseExpSign rest).2 = x := ⟨_, rfl⟩
      rw [hcs2] at h
      by_cases hds : (cs2.takeWhile isDigitChar).isEmpty
      · rw [if_pos hds] at h
        exact absurd h (by simp)
      · rw [if_neg hds] at h
        obtain ⟨ds, hdsq⟩ : ∃ x, cs2.takeWhile isDigitChar = x := ⟨_, rfl⟩
        rw [hdsq] at h hds
        obtain ⟨rfl, rfl⟩ : ex = (parseExpSign rest).1 * (digitsToNat ds : Int) ∧
            r = cs2.drop ds.length := by cases h; exact ⟨rfl, rfl⟩
        have hdig : ∀ d ∈ ds, isDigitChar d = true := fun d hc =>
          List.mem_takeWhile_imp (hdsq ▸ hc)
        have hsplit : cs2 = ds ++ cs2.dropWhile isDigitChar := by
          conv_lhs => rw [← List.takeWhile_append_dropWhile isDigitChar cs2]
          rw [hdsq]
        have hdropeq : cs2.drop ds.length = cs2.dropWhile isDigitChar := by
          conv_lhs => rw [hsplit]
          exact List.drop_left ds _
        have hdsne : ds ≠ [] := by simpa [List.isEmpty_iff] using hds
        obtain ⟨d0, ds', rfl⟩ : ∃ d0 ds', ds = d0 :: ds' := by
          cases ds with
          | nil => exact absurd rfl hdsne
          | cons a b => exact ⟨a, b, rfl⟩
        have hd0 : isDigitChar d0 = true := hdig d0 (by simp)
        have hd0p : d0 ≠ '+' := by
          intro hh; rw [hh] at hd0; simp [isDigitChar] at hd0
        have hd0m : d0 ≠ '-' := by
          intro hh; rw [hh] at hd0; simp [isDigitChar] at hd0
        have hsgn : ∃ sgn, rest = sgn ++ cs2 ∧ (sgn = [] ∨ sgn = ['+'] ∨ sgn = ['-']) ∧
            ∀ tail, parseExpSign (sgn ++ (d0 :: tail)) = ((parseExpSign rest).1, d0 :: tail) := by
          cases rest with
          | nil =>
            have hnil : cs2 = [] := by rw [← hcs2]; rfl
            rw [hnil] at hsplit
            simp at hsplit
          | cons s rest' =>
            by_cases hp : s = '+'
            · subst hp
              refine ⟨['+'], ?_, Or.inr (Or.inl rfl), ?_⟩
              · rw [← hcs2]; rfl
              · intro tail; rfl
            · by_cases hm : s = '-'
              · subst hm
                refine ⟨['-'], ?_, Or.inr (Or.inr rfl), ?_⟩
                · rw [← hcs2]; rfl
                · intro tail; rfl
              · have hone : parseExpSign (s :: rest') = (1, s :: rest') :=
                  parseExpSign_other hp hm
                refine ⟨[], ?_, Or.inl rfl, ?_⟩
                · rw [← hcs2, hone]
                  rfl
                · intro tail
                  rw [List.nil_append, parseExpSign_other hd0p hd0m, hone]
        obtain ⟨sgn, hrest, hsgnshape, hsgnre⟩ := hsgn
        refine ⟨c :: (sgn ++ (d0 :: ds')), ?_, ?_,
          Or.inr ⟨c, _, rfl, by simpa using he⟩, ?_⟩
        · rw [hdropeq, hrest]
          conv_lhs => rw [hsplit]
          simp
        · intro x hx
          rcases List.mem_cons.mp hx with h | h
          · subst h
            rcases (by simpa using he : x = 'e' ∨ x = 'E') with h | h <;>
              simp [numTailChar, h]
          · rcases List.mem_append.mp h with h | h
            · rcases hsgnshape with rfl | rfl | rfl
              · simp at h
              · simp at h; simp [numTailChar, h]
              · simp at h; simp [numTailChar, h]
            · exact Or.inr (Or.inr (Or.inr (Or.inr (Or.inr (hdig x h)))))
        · intro r2 hr2
          have e1 : (c :: (sgn ++ (d0 :: ds'))) ++ r2 = c :: (sgn ++ (d0 :: (ds' ++ r2))) := by
            simp
          rw [e1]
          unfold parseExp
          dsimp only
          rw [if_pos he, hsgnre (ds' ++ r2)]
          have htw : ((d0 :: (ds' ++ r2)).takeWhile isDigitChar) = d0 :: ds' := by
            have h0 := @takeWhile_digits_append (d0 :: ds') r2 hdig
              (fun c hc => (hr2 c hc).1)
            exact h0
          simp only [htw]
          rw [if_neg (by simp)]
          have hdrop2 : (d0 :: (ds' ++ r2)).drop (d0 :: ds').length = r2 := by
            have h0 := List.drop_left (d0 :: ds') r2
            exact h0
          rw [hdrop2]
    · unfold parseExp at h
      dsimp only at h
      rw [if_neg he] at h
      obtain ⟨rfl, rfl⟩ : ex = 0 ∧ r = c :: rest := by cases h; exact ⟨rfl, rfl⟩
      refine ⟨[], rfl, by simp, Or.inl rfl, ?_⟩
      intro r2 hr2
      exact parseExp_trivial (fun c hc => (hr2 c hc).2)

theorem headSafeL_facts {r2 : List Char} (h : headSafeL r2) : ∀ c, r2.head? = some c →
    isDigitChar c = false ∧ c ≠ '.' ∧ c ≠ 'e' ∧ c ≠ 'E' ∧ c ≠ backtick := by
  cases r2 with
  | nil => intro c hc; simp at hc
  | cons a t =>
    intro c hc
    simp at hc
    subst hc
    exact h

theorem parseNumberTail_eq (neg : Bool) (ip : Nat) (cs : List Char) :
    parseNumberTail neg ip cs =
      match parseFrac cs with
      | none => none
      | some (fv, fl, cs2) =>
        match parseExp cs2 with
        | none => none
        | some (ex, cs3) => some (numValue neg ip fv fl ex, cs3) := rfl

theorem parseNumberTail_shape {neg : Bool} {ip : Nat} {cs : List Char} {q : Rat}
    {r : List Char} (h : parseNumberTail neg ip cs = some (q, r)) :
    ∃ p, cs = p ++ r ∧ (∀ c ∈ p, numTailChar c) ∧
      (p = [] ∨ ∃ c t, p = c :: t ∧ (c = '.' ∨ c = 'e' ∨ c = 'E')) ∧
      ∀ r2, headSafeL r2 → parseNumberTail neg ip (p ++ r2) = some (q, r2) := by
  rw [parseNumberTail_eq] at h
  cases hf : parseFrac cs with
  | none => rw [hf] at h; exact absurd h (by simp)
  | some a =>
    rcases a with ⟨fv, fl, cs2⟩
    rw [hf] at h
    dsimp only at h
    cases he : parseExp cs2 with
    | none => rw [he] at h; exact absurd h (by simp)
    | some b =>
      rcases b with ⟨ex, cs3⟩
      rw [he] at h
      obtain ⟨rfl, rfl⟩ : q = numValue neg ip fv fl ex ∧ r = cs3 := by
        cases h; exact ⟨rfl, rfl⟩
      obtain ⟨pf, hcsf, hcf, hhf, href⟩ := parseFrac_shape hf
      obtain ⟨pe, hcse, hce, hhe, href2⟩ := parseExp_shape he
      refine ⟨pf ++ pe, ?_, ?_, ?_, ?_⟩
      · rw [hcsf, hcse, List.append_assoc]
      · intro c hc
        rcases List.mem_append.mp hc with h | h
        · rcases hcf c h with h | h
          · exact Or.inl h
          · exact Or.inr (Or.inr (Or.inr (Or.inr (Or.inr h))))
        · exact hce c h
      · rcases hhf with rfl | ⟨t, rfl⟩
        · rcases hhe with rfl | ⟨c, t, rfl, hct⟩
          · exact Or.inl rfl
          · exact Or.inr ⟨c, t, rfl, Or.inr hct⟩
        · exact Or.inr ⟨'.', t ++ pe, by simp, Or.inl rfl⟩
      · intro r2 hr2
        have hfp : parseFrac (pf ++ (pe ++ r2)) = some (fv, fl, pe ++ r2) := by
          apply href
          intro c hc
          cases pe with
          | nil =>
            simp at hc
            have := headSafeL_facts hr2 c hc
            exact ⟨this.1, this.2.1⟩
          | cons pc pt =>
            simp at hc
            rcases hhe with h0 | ⟨c0, t0, heq0, hct0⟩
            · simp at h0
            · have : pc = c0 := by
                have := (List.cons.injEq _ _ _ _ ▸ heq0).1
                rw [this]
              rw [← hc, this]
              rcases hct0 with rfl | rfl <;> exact ⟨by decide, by decide⟩
        have hep : parseExp (pe ++ r2) = some (ex, r2) := by
          apply href2
          intro c hc
          have := headSafeL_facts hr2 c hc
          exact ⟨this.1, this.2.2.1, this.2.2.2.1⟩
        rw [parseNumberTail_eq, List.append_assoc, hfp]
        dsimp only
        rw [hep]

theorem parseNumberCore_shape {neg : Bool} {cs : List Char} {q : Rat} {r : List Char}
    (h : parseNumberCore neg cs = some (q, r)) :
    ∃ p, cs = p ++ r ∧ (∀ c ∈ p, numTailChar c) ∧
      (∃ c t, p = c :: t ∧ isDigitChar c = true) ∧
      ∀ r2, headSafeL r2 → parseNumberCore neg (p ++ r2) = some (q, r2) := by
  cases cs with
  | nil => exact absurd h (by simp [parseNumberCore])
  | cons c rest =>
    unfold parseNumberCore at h
    dsimp only at h
    by_cases hz : (c == '0') = true
    · rw [if_pos hz] at h
      have hc0 : c = '0' := by simpa using hz
      subst hc0
      obtain ⟨pnt, hrest, hcnt, hhnt, hrent⟩ := parseNumberTail_shape h
      refine ⟨'0' :: pnt, by rw [hrest]; rfl, ?_, ⟨'0', pnt, rfl, by decide⟩, ?_⟩
      · intro x hx
        rcases List.mem_cons.mp hx with rfl | hx
        · exact Or.inr (Or.inr (Or.inr (Or.inr (Or.inr (by decide)))))
        · exact hcnt x hx
      · intro r2 hr2
        show parseNumberCore neg ('0' :: (pnt ++ r2)) = _
        unfold parseNumberCore
        dsimp only
        rw [if_pos (by decide)]
        exact hrent r2 hr2
    · rw [if_neg hz] at h
      by_cases hd : isDigitChar c = true
      · rw [if_pos hd] at h
        have htwc : (c :: rest).takeWhile isDigitChar = c :: rest.takeWhile isDigitChar := by
          rw [List.takeWhile_cons, if_pos hd]
        rw [htwc] at h
        obtain ⟨ds', hds'⟩ : ∃ x, rest.takeWhile isDigitChar = x := ⟨_, rfl⟩
        rw [hds'] at h
        have hdig' : ∀ d ∈ ds', isDigitChar d = true := fun d hc =>
          List.mem_takeWhile_imp (hds' ▸ hc)
        have hsplit : rest = ds' ++ rest.dropWhile isDigitChar := by
          conv_lhs => rw [← List.takeWhile_append_dropWhile isDigitChar rest]
          rw [hds']
        have hdropc : (c :: rest).drop (c :: ds').length = rest.dropWhile isDigitChar := by
          simp only [List.length_cons, List.drop_succ_cons]
          conv_lhs => rw [hsplit]
          exact List.drop_left ds' _
        rw [hdropc] at h
        obtain ⟨pnt, hrest, hcnt, hhnt, hrent⟩ := parseNumberTail_shape h
        refine ⟨(c :: ds') ++ pnt, ?_, ?_, ⟨c, ds' ++ pnt, by simp, hd⟩, ?_⟩
        · rw [List.append_assoc, ← hrest]
          conv_lhs => rw [hsplit]
          rfl
        · intro x hx
          simp at hx
          rcases hx with rfl | hx | hx
          · exact Or.inr (Or.inr (Or.inr (Or.inr (Or.inr hd))))
          · exact Or.inr (Or.inr (Or.inr (Or.inr (Or.inr (hdig' x hx)))))
          · exact hcnt x hx
        · intro r2 hr2
          have e1 : ((c :: ds') ++ pnt) ++ r2 = c :: (ds' ++ (pnt ++ r2)) := by simp
          rw [e1]
          unfold parseNumberCore
          dsimp only
          rw [if_neg hz, if_pos hd]
          have htw2 : (c :: (ds' ++ (pnt ++ r2))).takeWhile isDigitChar = c :: ds' := by
            rw [List.takeWhile_cons, if_pos hd]
            congr 1
            apply takeWhile_digits_append hdig'
            intro x hx
            cases pnt with
            | nil =>
              simp at hx
              exact (headSafeL_facts hr2 x hx).1
            | cons p0 pt =>
              simp at hx
              rcases hhnt with h0 | ⟨c0, t0, heq0, hct0⟩
              · simp at h0
              · have : p0 = c0 := (List.cons.injEq _ _ _ _ ▸ heq0).1
                rw [← hx, this]
                rcases hct0 with rfl | rfl | rfl <;> decide
          rw [htw2]
          have hdrop3 : (c :: (ds' ++ (pnt ++ r2))).drop (c :: ds').length = pnt ++ r2 := by
            simp only [List.length_cons, List.drop_succ_cons]
            exact List.drop_left ds' _
          rw [hdrop3]
          exact hrent r2 hr2
      · rw [if_neg hd] at h
        exact absurd h (by simp)

theorem parseNumber_not_minus {c : Char} {t : List Char} (h : c ≠ '-') :
    parseNumber (c :: t) = parseNumberCore false (c :: t) := by
  unfold parseNumber
  split
  · next heq => exact absurd ((List.cons.injEq _ _ _ _ ▸ heq).1) h
  · rfl

theorem parseNumber_shape {cs : List Char} {q : Rat} {r : List Char}
    (h : parseNumber cs = some (q, r)) :
    ∃ p, cs = p ++ r ∧ (∀ c ∈ p, numTailChar c) ∧
      (∃ c t, p = c :: t ∧ (c = '-' ∨ isDigitChar c = true)) ∧
      ∀ r2, headSafeL r2 → parseNumber (p ++ r2) = some (q, r2) := by
  cases cs with
  | nil => exact absurd h (by simp [parseNumber, parseNumberCore])
  | cons c rest =>
    by_cases hm : c = '-'
    · subst hm
      have h' : parseNumberCore true rest = some (q, r) := h
      obtain ⟨p, hrest, hcp, ⟨c0, t0, rfl, hc0⟩, hrep⟩ := parseNumberCore_shape h'
      refine ⟨'-' :: (c0 :: t0), by rw [hrest]; rfl, ?_,
        ⟨'-', c0 :: t0, rfl, Or.inl rfl⟩, ?_⟩
      · intro x hx
        rcases List.mem_cons.mp hx with rfl | hx
        · exact Or.inr (Or.inr (Or.inr (Or.inr (Or.inl rfl))))
        · exact hcp x hx
      · intro r2 hr2
        show parseNumber ('-' :: ((c0 :: t0) ++ r2)) = _
        have : parseNumber ('-' :: ((c0 :: t0) ++ r2))
            = parseNumberCore true ((c0 :: t0) ++ r2) := rfl
        rw [this]
        exact hrep r2 hr2
    · rw [parseNumber_not_minus hm] at h
      obtain ⟨p, hrest, hcp, ⟨c0, t0, heq, hc0⟩, hrep⟩ := parseNumberCore_shape h
      refine ⟨p, hrest, hcp, ⟨c0, t0, heq, Or.inr hc0⟩, ?_⟩
      intro r2 hr2
      have hc0m : c0 ≠ '-' := by
        intro hh
        rw [hh] at hc0
        simp [isDigitChar] at hc0
      rw [heq, List.cons_append, parseNumber_not_minus hc0m, ← List.cons_append, ← heq]
      exact hrep r2 hr2

theorem expectLit_shape {lit : List Char} {v : Json} {cs : List Char} {x : Json × List Char}
    (h : expectLit lit v cs = some x) :
    x.1 = v ∧ cs = lit ++ x.2 ∧ ∀ r2, expectLit lit v (lit ++ r2) = some (v, r2) := by
  unfold expectLit at h
  by_cases hp : lit.isPrefixOf cs = true
  · rw [if_pos hp] at h
    obtain rfl : x = (v, cs.drop lit.length) := by cases h; rfl
    obtain ⟨t, ht⟩ := List.isPrefixOf_iff_prefix.mp hp
    refine ⟨rfl, ?_, ?_⟩
    · show cs = lit ++ cs.drop lit.length
      conv_lhs => rw [← ht]
      rw [← ht, List.drop_left]
    · intro r2
      unfold expectLit
      rw [if_pos (List.isPrefixOf_iff_prefix.mpr (List.prefix_append lit r2)),
          List.drop_left]
  · rw [if_neg hp] at h
    exact absurd h (by simp)

theorem skipWs_suffix_facts {X : List Char} {c : Char} {rest : List Char}
    (h : skipWs X = c :: rest) : rest <:+ X ∧ rest.length + 1 ≤ X.length := by
  have h1 : (c :: rest) <:+ X := h ▸ List.dropWhile_suffix isJsonWs
  exact ⟨(List.suffix_cons c rest).trans h1, by simpa using h1.length_le⟩

/-- Each parser of the mutual trio consumes at least one character. -/
theorem parse_consume : ∀ (f : Nat),
    (∀ cs v r, parseValue f cs = some (v, r) → r <:+ cs ∧ r.length < cs.length) ∧
    (∀ cs vs r, parseElems f cs = some (vs, r) → r <:+ cs ∧ r.length < cs.length) ∧
    (∀ cs ms r, parseMembers f cs = some (ms, r) → r <:+ cs ∧ r.length < cs.length) := by
  intro f
  induction f with
  | zero =>
    refine ⟨?_, ?_, ?_⟩ <;> intro cs a r h <;>
      simp [parseValue, parseElems, parseMembers] at h
  | succ f ih =>
    obtain ⟨ihv, ihe, ihm⟩ := ih
    refine ⟨?_, ?_, ?_⟩
    · intro cs v r h
      unfold parseValue at h
      cases hsk : skipWs cs with
      | nil => rw [hsk] at h; exact absurd h (by simp)
      | cons c rest =>
        rw [hsk] at h
        dsimp only at h
        obtain ⟨hrsfx, hrlen⟩ := skipWs_suffix_facts hsk
        by_cases hq : (c == '"') = true
        · rw [if_pos hq] at h
          cases hps : parseStrChars (rest.length + 1) rest with
          | none => rw [hps] at h; exact absurd h (by simp)
          | some p =>
            rw [hps] at h
            obtain ⟨out, r1⟩ := p
            have hc := parseStrChars_consume _ rest (out, r1) hps
            obtain ⟨rfl, rfl⟩ : v = .str (String.mk out) ∧ r = r1 := by
              cases h; exact ⟨rfl, rfl⟩
            exact ⟨hc.1.trans hrsfx, by have := hc.2; simp at this ⊢; omega⟩
        · rw [if_neg hq] at h
          by_cases ht : (c == 't') = true
          · rw [if_pos ht] at h
            obtain ⟨_, hlit, _⟩ := expectLit_shape h
            refine ⟨?_, ?_⟩
            · exact (hlit ▸ List.suffix_append _ r).trans hrsfx
            · have : rest.length = ("rue".toList).length + r.length := by
                rw [hlit]; simp; omega
              simp at this
              omega
          · rw [if_neg ht] at h
            by_cases hf2 : (c == 'f') = true
            · rw [if_pos hf2] at h
              obtain ⟨_, hlit, _⟩ := expectLit_shape h
              refine ⟨(hlit ▸ List.suffix_append _ r).trans hrsfx, ?_⟩
              have : rest.length = ("alse".toList).length + r.length := by
                rw [hlit]; simp; omega
              simp at this
              omega
            · rw [if_neg hf2] at h
              by_cases hn : (c == 'n') = true
              · rw [if_pos hn] at h
                obtain ⟨_, hlit, _⟩ := expectLit_shape h
                refine ⟨(hlit ▸ List.suffix_append _ r).trans hrsfx, ?_⟩
                have : rest.length = ("ull".toList).length + r.length := by
                  rw [hlit]; simp; omega
                simp at this
                omega
              · rw [if_neg hn] at h
                by_cases hob : (c == Char.ofNat 123) = true
                · rw [if_pos hob] at h
                  cases hsk2 : skipWs rest with
                  | nil => rw [hsk2] at h; exact absurd h (by simp)
                  | cons c2 r2 =>
                    rw [hsk2] at h
                    dsimp only at h
                    obtain ⟨hr2sfx, hr2len⟩ := skipWs_suffix_facts hsk2
                    by_cases hcb : (c2 == Char.ofNat 125) = true
                    · rw [if_pos hcb] at h
                      obtain ⟨rfl, rfl⟩ : v = .obj [] ∧ r = r2 := by
                        cases h; exact ⟨rfl, rfl⟩
                      exact ⟨(hr2sfx.trans hrsfx), by omega⟩
                    · rw [if_neg hcb] at h
                      cases hpm : parseMembers f (c2 :: r2) with
                      | none => rw [hpm] at h; exact absurd h (by simp)
                      | some p =>
                        rw [hpm] at h
                        obtain ⟨ms, r3⟩ := p
                        have hc := ihm (c2 :: r2) ms r3 hpm
                        obtain ⟨rfl, rfl⟩ : v = .obj ms ∧ r = r3 := by
                          cases h; exact ⟨rfl, rfl⟩
                        have hsf : (c2 :: r2) <:+ rest := hsk2 ▸ List.dropWhile_suffix _
                        refine ⟨(hc.1.trans hsf).trans hrsfx, ?_⟩
                        have := hc.2
                        simp at this
                        omega
                · rw [if_neg hob] at h
                  by_cases har : (c == '[') = true
                  · rw [if_pos har] at h
                    cases hsk2 : skipWs rest with
                    | nil => rw [hsk2] at h; exact absurd h (by simp)
                    | cons c2 r2 =>
                      rw [hsk2] at h
                      dsimp only at h
                      obtain ⟨hr2sfx, hr2len⟩ := skipWs_suffix_facts hsk2
                      by_cases hcb : (c2 == ']') = true
                      · rw [if_pos hcb] at h
                        obtain ⟨rfl, rfl⟩ : v = .arr [] ∧ r = r2 := by
                          cases h; exact ⟨rfl, rfl⟩
                        exact ⟨(hr2sfx.trans hrsfx), by omega⟩
                      · rw [if_neg hcb] at h
                        cases hpe : parseElems f (c2 :: r2) with
                        | none => rw [hpe] at h; exact absurd h (by simp)
                        | some p =>
                          rw [hpe] at h
                          obtain ⟨vs, r3⟩ := p
                          have hc := ihe (c2 :: r2) vs r3 hpe
                          obtain ⟨rfl, rfl⟩ : v = .arr vs ∧ r = r3 := by
                            cases h; exact ⟨rfl, rfl⟩
                          have hsf : (c2 :: r2) <:+ rest := hsk2 ▸ List.dropWhile_suffix _
                          refine ⟨(hc.1.trans hsf).trans hrsfx, ?_⟩
                          have := hc.2
                          simp at this
                          omega
                  · rw [if_neg har] at h
                    by_cases hnum : (c == '-' || isDigitChar c) = true
                    · rw [if_pos hnum] at h
                      cases hpn : parseNumber (c :: rest) with
                      | none => rw [hpn] at h; exact absurd h (by simp)
                      | some p =>
                        rw [hpn] at h
                        obtain ⟨qq, r1⟩ := p
                        obtain ⟨p, hcse, _, ⟨c0, t0, rfl, _⟩, _⟩ := parseNumber_shape hpn
                        have hsfx1 : r1 <:+ c :: rest := hcse ▸ List.suffix_append _ r1
                        have hl : (c :: rest).length = (c0 :: t0).length + r1.length := by
                          rw [hcse]; simp; omega
                        obtain ⟨rfl, rfl⟩ : v = .num qq ∧ r = r1 := by
                          cases h; exact ⟨rfl, rfl⟩
                        have hsfx0 : (c :: rest) <:+ cs := hsk ▸ List.dropWhile_suffix _
                        refine ⟨hsfx1.trans hsfx0, ?_⟩
                        have hl2 := hsfx0.length_le
                        simp at hl
                        omega
                    · rw [if_neg hnum] at h
                      exact absurd h (by simp)
    · intro cs vs r h
      unfold parseElems at h
      cases hpv : parseValue f cs with
      | none => rw [hpv] at h; exact absurd h (by simp)
      | some p =>
        rw [hpv] at h
        dsimp only at h
        obtain ⟨v, rv⟩ := p
        have hcv := ihv cs v rv hpv
        cases hsk : skipWs rv with
        | nil => rw [hsk] at h; exact absurd h (by simp)
        | cons c r2 =>
          rw [hsk] at h
          dsimp only at h
          obtain ⟨hr2sfx, hr2len⟩ := skipWs_suffix_facts hsk
          by_cases hcm : (c == ',') = true
          · rw [if_pos hcm] at h
            cases hpe : parseElems f r2 with
            | none => rw [hpe] at h; exact absurd h (by simp)
            | some p2 =>
              rw [hpe] at h
              obtain ⟨vs2, r3⟩ := p2
              have hc2 := ihe r2 vs2 r3 hpe
              have hs : r3 <:+ cs := ((hc2.1.trans hr2sfx).trans hcv.1)
              obtain ⟨rfl, rfl⟩ : vs = v :: vs2 ∧ r = r3 := by cases h; exact ⟨rfl, rfl⟩
              refine ⟨hs, ?_⟩
              have := hc2.2
              have := hcv.2
              have := hr2sfx.length_le
              omega
          · rw [if_neg hcm] at h
            by_cases hcb : (c == ']') = true
            · rw [if_pos hcb] at h
              obtain ⟨rfl, rfl⟩ : vs = [v] ∧ r = r2 := by cases h; exact ⟨rfl, rfl⟩
              refine ⟨(hr2sfx.trans hcv.1), ?_⟩
              have := hcv.2
              omega
            · rw [if_neg hcb] at h
              exact absurd h (by simp)
    · intro cs ms r h
      unfold parseMembers at h
      cases cs with
      | nil => exact absurd h (by simp)
      | cons c rest =>
        dsimp only at h
        by_cases hq : (c == '"') = true
        · rw [if_pos hq] at h
          cases hps : parseStrChars (rest.length + 1) rest with
          | none => rw [hps] at h; exact absurd h (by simp)
          | some p =>
            rw [hps] at h
            dsimp only at h
            obtain ⟨key, r1⟩ := p
            have hc1 := parseStrChars_consume _ rest (key, r1) hps
            cases hsk : skipWs r1 with
            | nil => rw [hsk] at h; exact absurd h (by simp)
            | cons c2 r2 =>
              rw [hsk] at h
              dsimp only at h
              obtain ⟨hr2sfx, hr2len⟩ := skipWs_suffix_facts hsk
              by_cases hcol : (c2 == ':') = true
              · rw [if_pos hcol] at h
                cases hpv : parseValue f r2 with
                | none => rw [hpv] at h; exact absurd h (by simp)
                | some p2 =>
                  rw [hpv] at h
                  dsimp only at h
                  obtain ⟨v, r3⟩ := p2
                  have hc2 := ihv r2 v r3 hpv
                  cases hsk2 : skipWs r3 with
                  | nil => rw [hsk2] at h; exact absurd h (by simp)
                  | cons c3 r4 =>
                    rw [hsk2] at h
                    dsimp only at h
                    obtain ⟨hr4sfx, hr4len⟩ := skipWs_suffix_facts hsk2
                    by_cases hcm : (c3 == ',') = true
                    · rw [if_pos hcm] at h
                      cases hpm : parseMembers f (skipWs r4) with
                      | none => rw [hpm] at h; exact absurd h (by simp)
                      | some p3 =>
                        rw [hpm] at h
                        obtain ⟨ms2, r5⟩ := p3
                        have hc3 := ihm (skipWs r4) ms2 r5 hpm
                        have hskr4 : skipWs r4 <:+ r4 := List.dropWhile_suffix _
                        have hs : r5 <:+ c :: rest := by
                          refine (((((hc3.1.trans hskr4).trans hr4sfx).trans hc2.1).trans
                            hr2sfx).trans hc1.1).trans (List.suffix_cons c rest)
                        have l1 := hc3.2
                        have l2 := hskr4.length_le
                        have l3 := hc2.2
                        have l4 : r1.length < rest.length := hc1.2
                        obtain ⟨rfl, rfl⟩ : ms = (String.mk key, v) :: ms2 ∧ r = r5 := by
                          cases h; exact ⟨rfl, rfl⟩
                        refine ⟨hs, ?_⟩
                        simp only [List.length_cons]
                        omega
                    · rw [if_neg hcm] at h
                      by_cases hcb : (c3 == Char.ofNat 125) = true
                      · rw [if_pos hcb] at h
                        have hs : r4 <:+ c :: rest := by
                          refine (((hr4sfx.trans hc2.1).trans hr2sfx).trans hc1.1).trans
                            (List.suffix_cons c rest)
                        have l3 := hc2.2
                        have l4 : r1.length < rest.length := hc1.2
                        obtain ⟨rfl, rfl⟩ : ms = [(String.mk key, v)] ∧ r = r4 := by
                          cases h; exact ⟨rfl, rfl⟩
                        refine ⟨hs, ?_⟩
                        simp only [List.length_cons]
                        omega
                      · rw [if_neg hcb] at h
                        exact absurd h (by simp)
              · rw [if_neg hcol] at h
                exact absurd h (by simp)
        · rw [if_neg hq] at h
          exact absurd h (by simp)

/-- Fuel sufficiency: a parse that succeeds at some fuel succeeds at any fuel
of at least twice the input length (plus a small constant). -/
theorem parse_suff : ∀ (f : Nat),
    (∀ cs x, parseValue f cs = some x →
      ∀ g, 2 * cs.length + 1 ≤ g → parseValue g cs = some x) ∧
    (∀ cs x, parseElems f cs = some x →
      ∀ g, 2 * cs.length + 2 ≤ g → parseElems g cs = some x) ∧
    (∀ cs x, parseMembers f cs = some x →
      ∀ g, 2 * cs.length + 2 ≤ g → parseMembers g cs = some x) := by
  intro f
  induction f with
  | zero =>
    refine ⟨?_, ?_, ?_⟩ <;> intro cs x h <;>
      simp [parseValue, parseElems, parseMembers] at h
  | succ f ih =>
    obtain ⟨ihv, ihe, ihm⟩ := ih
    refine ⟨?_, ?_, ?_⟩
    · intro cs x h g hg
      match g, hg with
      | g' + 1, hg =>
      unfold parseValue at h ⊢
      cases hsk : skipWs cs with
      | nil => rw [hsk] at h; exact absurd h (by simp)
      | cons c rest =>
        rw [hsk] at h
        dsimp only at h ⊢
        obtain ⟨hrsfx, hrlen⟩ := skipWs_suffix_facts hsk
        by_cases hq : (c == '"') = true
        · rw [if_pos hq] at h ⊢
          exact h
        · rw [if_neg hq] at h ⊢
          by_cases ht : (c == 't') = true
          · rw [if_pos ht] at h ⊢; exact h
          · rw [if_neg ht] at h ⊢
            by_cases hf2 : (c == 'f') = true
            · rw [if_pos hf2] at h ⊢; exact h
            · rw [if_neg hf2] at h ⊢
              by_cases hn : (c == 'n') = true
              · rw [if_pos hn] at h ⊢; exact h
              · rw [if_neg hn] at h ⊢
                by_cases hob : (c == Char.ofNat 123) = true
                · rw [if_pos hob] at h ⊢
                  cases hsk2 : skipWs rest with
                  | nil => rw [hsk2] at h; exact absurd h (by simp)
                  | cons c2 r2 =>
                    rw [hsk2] at h
                    dsimp only at h ⊢
                    obtain ⟨hr2sfx, hr2len⟩ := skipWs_suffix_facts hsk2
                    by_cases hcb : (c2 == Char.ofNat 125) = true
                    · rw [if_pos hcb] at h ⊢; exact h
                    · rw [if_neg hcb] at h ⊢
                      cases hpm : parseMembers f (c2 :: r2) with
                      | none => rw [hpm] at h; exact absurd h (by simp)
                      | some p =>
                        rw [hpm] at h
                        have hb : 2 * (c2 :: r2).length + 2 ≤ g' := by
                          simp only [List.length_cons]; omega
                        rw [ihm (c2 :: r2) p hpm g' hb]
                        exact h
                · rw [if_neg hob] at h ⊢
                  by_cases har : (c == '[') = true
                  · rw [if_pos har] at h ⊢
                    cases hsk2 : skipWs rest with
                    | nil => rw [hsk2] at h; exact absurd h (by simp)
                    | cons c2 r2 =>
                      rw [hsk2] at h
                      dsimp only at h ⊢
                      obtain ⟨hr2sfx, hr2len⟩ := skipWs_suffix_facts hsk2
                      by_cases hcb : (c2 == ']') = true
                      · rw [if_pos hcb] at h ⊢; exact h
                      · rw [if_neg hcb] at h ⊢
                        cases hpe : parseElems f (c2 :: r2) with
                        | none => rw [hpe] at h; exact absurd h (by simp)
                        | some p =>
                          rw [hpe] at h
                          have hb : 2 * (c2 :: r2).length + 2 ≤ g' := by
                            simp only [List.length_cons]; omega
                          rw [ihe (c2 :: r2) p hpe g' hb]
                          exact h
                  · rw [if_neg har] at h ⊢
                    by_cases hnum : (c == '-' || isDigitChar c) = true
                    · rw [if_pos hnum] at h ⊢; exact h
                    · rw [if_neg hnum] at h ⊢; exact h
    · intro cs x h g hg
      match g, hg with
      | g' + 1, hg =>
      unfold parseElems at h ⊢
      cases hpv : parseValue f cs with
      | none => rw [hpv] at h; exact absurd h (by simp)
      | some p =>
        rw [hpv] at h
        dsimp only at h
        obtain ⟨v, rv⟩ := p
        have hcv := ((parse_consume f).1) cs v rv hpv
        have hb1 : 2 * cs.length + 1 ≤ g' := by omega
        rw [ihv cs (v, rv) hpv g' hb1]
        dsimp only
        cases hsk : skipWs rv with
        | nil => rw [hsk] at h; exact absurd h (by simp)
        | cons c r2 =>
          rw [hsk] at h
          dsimp only at h ⊢
          obtain ⟨hr2sfx, hr2len⟩ := skipWs_suffix_facts hsk
          by_cases hcm : (c == ',') = true
          · rw [if_pos hcm] at h ⊢
            cases hpe : parseElems f r2 with
            | none => rw [hpe] at h; exact absurd h (by simp)
            | some p2 =>
              rw [hpe] at h
              have hb2 : 2 * r2.length + 2 ≤ g' := by
                have := hcv.2
                omega
              rw [ihe r2 p2 hpe g' hb2]
              exact h
          · rw [if_neg hcm] at h ⊢
            by_cases hcb : (c == ']') = true
            · rw [if_pos hcb] at h ⊢; exact h
            · rw [if_neg hcb] at h ⊢; exact h
    · intro cs x h g hg
      match g, hg with
      | g' + 1, hg =>
      unfold parseMembers at h ⊢
      cases cs with
      | nil => exact absurd h (by simp)
      | cons c rest =>
        dsimp only at h ⊢
        by_cases hq : (c == '"') = true
        · rw [if_pos hq] at h ⊢
          cases hps : parseStrChars (rest.length + 1) rest with
          | none => rw [hps] at h; exact absurd h (by simp)
          | some p =>
            rw [hps] at h
            dsimp only at h ⊢
            obtain ⟨key, r1⟩ := p
            have hc1 : r1.length < rest.length :=
              (parseStrChars_consume _ rest (key, r1) hps).2
            cases hsk : skipWs r1 with
            | nil => rw [hsk] at h; exact absurd h (by simp)
            | cons c2 r2 =>
              rw [hsk] at h
              dsimp only at h ⊢
              obtain ⟨hr2sfx, hr2len⟩ := skipWs_suffix_facts hsk
              by_cases hcol : (c2 == ':') = true
              · rw [if_pos hcol] at h ⊢
                cases hpv : parseValue f r2 with
                | none => rw [hpv] at h; exact absurd h (by simp)
                | some p2 =>
                  rw [hpv] at h
                  dsimp only at h
                  obtain ⟨v, r3⟩ := p2
                  have hc2 := ((parse_consume f).1) r2 v r3 hpv
                  have hb1 : 2 * r2.length + 1 ≤ g' := by
                    simp only [List.length_cons] at hg
                    omega
                  rw [ihv r2 (v, r3) hpv g' hb1]
                  dsimp only
                  cases hsk2 : skipWs r3 with
                  | nil => rw [hsk2] at h; exact absurd h (by simp)
                  | cons c3 r4 =>
                    rw [hsk2] at h
                    dsimp only at h ⊢
                    obtain ⟨hr4sfx, hr4len⟩ := skipWs_suffix_facts hsk2
                    by_cases hcm : (c3 == ',') = true
                    · rw [if_pos hcm] at h ⊢
                      cases hpm : parseMembers f (skipWs r4) with
                      | none => rw [hpm] at h; exact absurd h (by simp)
                      | some p3 =>
                        rw [hpm] at h
                        have hskr4 : (skipWs r4).length ≤ r4.length :=
                          (List.dropWhile_suffix _).length_le
                        have hb2 : 2 * (skipWs r4).length + 2 ≤ g' := by
                          simp only [List.length_cons] at hg
                          have := hc2.2
                          omega
                        rw [ihm (skipWs r4) p3 hpm g' hb2]
                        exact h
                    · rw [if_neg hcm] at h ⊢
                      by_cases hcb : (c3 == Char.ofNat 125) = true
                      · rw [if_pos hcb] at h ⊢; exact h
                      · rw [if_neg hcb] at h ⊢; exact h
              · rw [if_neg hcol] at h ⊢
                exact h
        · rw [if_neg hq] at h ⊢
          exact h

/-- Syntactic characterization of a parseable JSON string body: the text
after the opening quote, up to and including the closing quote. -/
inductive StrBody : List Char → Prop where
  | quote : StrBody ['"']
  | plain {c : Char} {b : List Char} : c ≠ '"' → c ≠ '\\' → ¬ c.toNat < 0x20 →
      StrBody b → StrBody (c :: b)
  | esc {e ec : Char} {b : List Char} : escChar e = some ec → StrBody b →
      StrBody ('\\' :: e :: b)
  | uesc {h1 h2 h3 h4 : Char} {a a2 a3 a4 : Nat} {b : List Char} :
      hexVal h1 = some a → hexVal h2 = some a2 → hexVal h3 = some a3 →
      hexVal h4 = some a4 → StrBody b → StrBody ('\\' :: 'u' :: h1 :: h2 :: h3 :: h4 :: b)

/-- A successful string-body parse consumes a `StrBody`. -/
theorem parseStrChars_strBody : ∀ (f : Nat) (cs : List Char) (out r : List Char),
    parseStrChars f cs = some (out, r) → ∃ body, cs = body ++ r ∧ StrBody body := by
  intro f
  induction f using Nat.strong_induction_on with
  | _ f ih =>
    intro cs out r h
    cases f with
    | zero => simp [parseStrChars] at h
    | succ f =>
      cases cs with
      | nil => simp [parseStrChars] at h
      | cons c rest =>
        by_cases hq : (c == '"') = true
        · simp only [parseStrChars, if_pos hq] at h
          obtain ⟨rfl, rfl⟩ : out = [] ∧ r = rest := by cases h; exact ⟨rfl, rfl⟩
          exact ⟨['"'], by rw [(by simpa using hq : c = '"')]; rfl, StrBody.quote⟩
        · by_cases hbs : (c == '\\') = true
          · simp only [parseStrChars, if_neg hq, if_pos hbs] at h
            cases rest with
            | nil => exact absurd h (by simp)
            | cons e rest2 =>
              by_cases hu : (e == 'u') = true
              · simp only [if_pos hu] at h
                cases rest2 with
                | nil => exact absurd h (by simp)
                | cons x1 t1 =>
                  cases t1 with
                  | nil => exact absurd h (by simp)
                  | cons x2 t2 =>
                    cases t2 with
                    | nil => exact absurd h (by simp)
                    | cons x3 t3 =>
                      cases t3 with
                      | nil => exact absurd h (by simp)
                      | cons x4 rest3 =>
                        dsimp only at h
                        cases hv1 : hexVal x1 with
                        | none => rw [hv1] at h; exact absurd h (by simp)
                        | some a =>
                          cases hv2 : hexVal x2 with
                          | none => rw [hv1, hv2] at h; exact absurd h (by simp)
                          | some a2 =>
                            cases hv3 : hexVal x3 with
                            | none => rw [hv1, hv2, hv3] at h; exact absurd h (by simp)
                            | some a3 =>
                              cases hv4 : hexVal x4 with
                              | none =>
                                rw [hv1, hv2, hv3, hv4] at h; exact absurd h (by simp)
                              | some a4 =>
                                simp only [hv1, hv2, hv3, hv4] at h
                                rw [Option.map_eq_map, Option.map_eq_some'] at h
                                obtain ⟨⟨o3, r3⟩, hp', hx⟩ := h
                                obtain rfl : r = r3 := by cases hx; rfl
                                obtain ⟨body3, rfl, hb3⟩ :=
                                  ih f (by omega) rest3 o3 _ hp'
                                refine ⟨'\\' :: 'u' :: x1 :: x2 :: x3 :: x4 :: body3, ?_, ?_⟩
                                · rw [(by simpa using hbs : c = '\\'),
                                      (by simpa using hu : e = 'u')]
                                  rfl
                                · exact StrBody.uesc hv1 hv2 hv3 hv4 hb3
              · simp only [if_neg hu] at h
                cases he : escChar e with
                | none => rw [he] at h; exact absurd h (by simp)
                | some ec =>
                  simp only [he] at h
                  rw [Option.map_eq_map, Option.map_eq_some'] at h
                  obtain ⟨⟨o2, r2⟩, hp', hx⟩ := h
                  obtain rfl : r = r2 := by cases hx; rfl
                  obtain ⟨body2, rfl, hb2⟩ := ih f (by omega) rest2 o2 _ hp'
                  refine ⟨'\\' :: e :: body2, ?_, StrBody.esc he hb2⟩
                  rw [(by simpa using hbs : c = '\\')]
                  rfl
          · by_cases hctrl : c.toNat < 0x20
            · simp only [parseStrChars, if_neg hq, if_neg hbs, if_pos hctrl] at h
              exact absurd h (by simp)
            · rw [parseStrChars_step f rest (by simpa using hq) (by simpa using hbs) hctrl] at h
              rw [Option.map_eq_map, Option.map_eq_some'] at h
              obtain ⟨⟨o1, r1⟩, hp', hx⟩ := h
              obtain rfl : r = r1 := by cases hx; rfl
              obtain ⟨body1, rfl, hb1⟩ := ih f (by omega) rest o1 _ hp'
              exact ⟨c :: body1, rfl,
                StrBody.plain (by simpa using hq) (by simpa using hbs) hctrl hb1⟩

/-- A `StrBody` parses as a string body in front of any continuation,
consuming exactly itself. -/
theorem strBody_parse : ∀ {body : List Char}, StrBody body → ∀ r2 : List Char,
    ∃ out2 g, parseStrChars g (body ++ r2) = some (out2, r2) := by
  intro body h
  induction h with
  | quote => exact fun r2 => ⟨[], 1, by simp [parseStrChars]⟩
  | plain hq hbs hctrl _ ihb =>
    intro r2
    obtain ⟨out2, g, hg⟩ := ihb r2
    exact ⟨_ :: out2, g + 1, by
      rw [List.cons_append, parseStrChars_step g _ hq hbs hctrl, hg]; rfl⟩
  | @esc e ec b he _ ihb =>
    intro r2
    obtain ⟨out2, g, hg⟩ := ihb r2
    refine ⟨ec :: out2, g + 1, ?_⟩
    have hu : (e == 'u') = false := by
      cases hb2 : (e == 'u')
      · rfl
      · have hn : escChar 'u' = none := by decide
        rw [(by simpa using hb2 : e = 'u'), hn] at he
        exact Option.noConfusion he
    show parseStrChars (g + 1) ('\\' :: e :: (b ++ r2)) = some (ec :: out2, r2)
    simp only [parseStrChars]
    rw [if_neg (by decide), if_pos (by decide)]
    rw [if_neg (by simp [hu]), he]
    dsimp only
    rw [hg]
    rfl
  | @uesc x1 x2 x3 x4 a a2 a3 a4 b hv1 hv2 hv3 hv4 _ ihb =>
    intro r2
    obtain ⟨out2, g, hg⟩ := ihb r2
    refine ⟨codeToChar (((a * 16 + a2) * 16 + a3) * 16 + a4) :: out2, g + 1, ?_⟩
    show parseStrChars (g + 1) ('\\' :: 'u' :: x1 :: x2 :: x3 :: x4 :: (b ++ r2))
      = some (codeToChar (((a * 16 + a2) * 16 + a3) * 16 + a4) :: out2, r2)
    simp only [parseStrChars]
    rw [if_neg (by decide), if_pos (by decide)]
    rw [if_pos (by decide)]
    rw [hv1, hv2, hv3, hv4]
    dsimp only
    rw [hg]
    rfl

/-- Dropping a plain leading character of a string body leaves a string
body. -/
theorem strBody_tail {c : Char} {b : List Char} (h : StrBody (c :: b))
    (hq : c ≠ '"') (hbs : c ≠ '\\') : StrBody b := by
  cases h with
  | quote => exact absurd rfl hq
  | plain _ _ _ hb => exact hb
  | esc _ _ => exact absurd rfl hbs
  | uesc _ _ _ _ _ => exact absurd rfl hbs

/-- Every string body ends with the closing quote. -/
theorem strBody_last : ∀ {body : List Char}, StrBody body → ∃ p, body = p ++ ['"'] := by
  intro body h
  induction h with
  | quote => exact ⟨[], rfl⟩
  | plain _ _ _ _ ihb => obtain ⟨p, rfl⟩ := ihb; exact ⟨_ :: p, rfl⟩
  | esc _ _ ihb => obtain ⟨p, rfl⟩ := ihb; exact ⟨'\\' :: _ :: p, rfl⟩
  | uesc _ _ _ _ _ ihb =>
    obtain ⟨p, rfl⟩ := ihb
    exact ⟨'\\' :: 'u' :: _ :: _ :: _ :: _ :: p, rfl⟩

theorem hexVal_ne_backtick {c : Char} {a : Nat} (h : hexVal c = some a) : c ≠ backtick := by
  intro hh
  rw [hh, (by decide : hexVal backtick = none)] at h
  exact Option.noConfusion h

theorem escChar_ne_backtick {e ec : Char} (h : escChar e = some ec) : e ≠ backtick := by
  intro hh
  rw [hh, (by decide : escChar backtick = none)] at h
  exact Option.noConfusion h

/-- Fence stripping maps string bodies to string bodies: the deleted
characters are always plain string content. -/
theorem strBody_strip : ∀ (n : Nat), ∀ body : List Char, body.length ≤ n →
    StrBody body → StrBody (stripFences body) := by
  intro n
  induction n using Nat.strong_induction_on with
  | _ n ih =>
    intro body hlen hb
    cases hb with
    | quote => rw [stripFences_single]; exact StrBody.quote
    | @plain c b hq hbs hctrl hb' =>
      by_cases h7 : fenceJson.isPrefixOf (c :: b) = true
      · obtain ⟨tail, htail⟩ := List.isPrefixOf_iff_prefix.mp h7
        have hdrop : (c :: b).drop 7 = tail := by
          rw [← htail, (by decide : (7 : Nat) = fenceJson.length), List.drop_left]
        rw [stripFences_eq7 h7, hdrop]
        have hsb0 : StrBody (fenceJson ++ tail) := by
          have hx := StrBody.plain hq hbs hctrl hb'
          rwa [← htail] at hx
        rw [fenceJson_eq] at hsb0
        simp only [List.cons_append, List.nil_append] at hsb0
        have t1 := strBody_tail hsb0 (by decide) (by decide)
        have t2 := strBody_tail t1 (by decide) (by decide)
        have t3 := strBody_tail t2 (by decide) (by decide)
        have t4 := strBody_tail t3 (by decide) (by decide)
        have t5 := strBody_tail t4 (by decide) (by decide)
        have t6 := strBody_tail t5 (by decide) (by decide)
        have t7 := strBody_tail t6 (by decide) (by decide)
        have hlen2 : 7 + tail.length ≤ n := by
          have : (fenceJson ++ tail).length = (c :: b).length := by rw [htail]
          simp only [List.length_append, List.length_cons,
            (by decide : fenceJson.length = 7)] at this
          simp only [List.length_cons] at hlen
          omega
        exact ih tail.length (by omega) tail le_rfl t7
      · by_cases h3 : fencePlain.isPrefixOf (c :: b) = true
        · obtain ⟨tail, htail⟩ := List.isPrefixOf_iff_prefix.mp h3
          have hdrop : (c :: b).drop 3 = tail := by
            rw [← htail, (by decide : (3 : Nat) = fencePlain.length), List.drop_left]
          rw [stripFences_eq3 (bool_eq_false h7) h3, hdrop]
          have hsb0 : StrBody (fencePlain ++ tail) := by
            have hx := StrBody.plain hq hbs hctrl hb'
            rwa [← htail] at hx
          rw [fencePlain_eq] at hsb0
          simp only [List.cons_append, List.nil_append] at hsb0
          have t1 := strBody_tail hsb0 (by decide) (by decide)
          have t2 := strBody_tail t1 (by decide) (by decide)
          have t3 := strBody_tail t2 (by decide) (by decide)
          have hlen2 : 3 + tail.length ≤ n := by
            have : (fencePlain ++ tail).length = (c :: b).length := by rw [htail]
            simp only [List.length_append, List.length_cons,
              (by decide : fencePlain.length = 3)] at this
            simp only [List.length_cons] at hlen
            omega
          exact ih tail.length (by omega) tail le_rfl t3
        · rw [stripFences_cons (bool_eq_false h7) (bool_eq_false h3)]
          exact StrBody.plain hq hbs hctrl
            (ih b.length (by simp only [List.length_cons] at hlen; omega) b le_rfl hb')
    | @esc e ec b he hb' =>
      rw [stripFences_cons_of_ne (by decide), stripFences_cons_of_ne (escChar_ne_backtick he)]
      exact StrBody.esc he
        (ih b.length (by simp only [List.length_cons] at hlen; omega) b le_rfl hb')
    | @uesc x1 x2 x3 x4 a a2 a3 a4 b hv1 hv2 hv3 hv4 hb' =>
      rw [stripFences_cons_of_ne (by decide), stripFences_cons_of_ne (by decide),
          stripFences_cons_of_ne (hexVal_ne_backtick hv1),
          stripFences_cons_of_ne (hexVal_ne_backtick hv2),
          stripFences_cons_of_ne (hexVal_ne_backtick hv3),
          stripFences_cons_of_ne (hexVal_ne_backtick hv4)]
      exact StrBody.uesc hv1 hv2 hv3 hv4
        (ih b.length (by simp only [List.length_cons] at hlen; omega) b le_rfl hb')

theorem strBody_strip_self {body : List Char} (h : StrBody body) :
    StrBody (stripFences body) :=
  strBody_strip body.length body le_rfl h

/-! ### Character-class facts used by the preservation argument -/

theorem ws_char_cases {c : Char} (h : isJsonWs c = true) :
    c = ' ' ∨ c = '\t' ∨ c = '\n' ∨ c = '\r' := by
  simpa [isJsonWs, or_assoc] using h

theorem jsws_char_cases {c : Char} (h : jsWhitespace c = true) :
    c = ' ' ∨ c = '\t' ∨ c = '\n' ∨ c = '\r' ∨ c = Char.ofNat 11 ∨ c = Char.ofNat 12 ∨
      c = Char.ofNat 160 ∨ c = Char.ofNat 0xfeff := by
  simpa [jsWhitespace, or_assoc] using h

theorem isJsonWs_jsws {c : Char} (h : isJsonWs c = true) : jsWhitespace c = true := by
  rcases ws_char_cases h with rfl | rfl | rfl | rfl <;> decide

theorem isJsonWs_ne_backtick {c : Char} (h : isJsonWs c = true) : c ≠ backtick := by
  rcases ws_char_cases h with rfl | rfl | rfl | rfl <;> decide

theorem digitChar_not_ws {c : Char} (h : isDigitChar c = true) : isJsonWs c = false := by
  cases hw : isJsonWs c
  · rfl
  · rcases ws_char_cases hw with rfl | rfl | rfl | rfl <;> exact absurd h (by decide)

theorem digitChar_not_jsws {c : Char} (h : isDigitChar c = true) : jsWhitespace c = false := by
  cases hw : jsWhitespace c
  · rfl
  · rcases jsws_char_cases hw with rfl | rfl | rfl | rfl | rfl | rfl | rfl | rfl <;>
      exact absurd h (by decide)

theorem digitChar_ne {c d : Char} (h : isDigitChar c = true) (hd : isDigitChar d = false) :
    c ≠ d := by
  intro hh
  rw [hh, hd] at h
  exact Bool.noConfusion h

theorem numTailChar_facts {c : Char} (h : numTailChar c) :
    safeEnd c ∧ c ≠ backtick ∧ jsWhitespace c = false := by
  rcases h with rfl | rfl | rfl | rfl | rfl | hd
  · exact ⟨⟨by decide, by decide, by decide, by decide, by decide⟩, by decide, by decide⟩
  · exact ⟨⟨by decide, by decide, by decide, by decide, by decide⟩, by decide, by decide⟩
  · exact ⟨⟨by decide, by decide, by decide, by decide, by decide⟩, by decide, by decide⟩
  · exact ⟨⟨by decide, by decide, by decide, by decide, by decide⟩, by decide, by decide⟩
  · exact ⟨⟨by decide, by decide, by decide, by decide, by decide⟩, by decide, by decide⟩
  · refine ⟨⟨digitChar_ne hd (by decide), digitChar_ne hd (by decide),
      digitChar_ne hd (by decide), digitChar_ne hd (by decide),
      digitChar_ne hd (by decide)⟩, digitChar_ne hd (by decide), digitChar_not_jsws hd⟩

theorem headSafeL_ws_append {ws : List Char} (hws : ∀ c ∈ ws, isJsonWs c = true)
    {t : List Char} (ht : headSafeL t) : headSafeL (ws ++ t) := by
  cases ws with
  | nil => simpa using ht
  | cons c w =>
    have hc := hws c (by simp)
    rcases ws_char_cases hc with rfl | rfl | rfl | rfl <;>
      exact ⟨by decide, by decide, by decide, by decide, by decide⟩

theorem headSafeL_cons {c : Char} (h1 : isDigitChar c = false) (h2 : c ≠ '.')
    (h3 : c ≠ 'e') (h4 : c ≠ 'E') (h5 : c ≠ backtick) (t : List Char) :
    headSafeL (c :: t) := ⟨h1, h2, h3, h4, h5⟩

theorem stripFences_split {X : List Char} {cp : List Char} {cd : Char} (hX : X = cp ++ [cd])
    (hcd : safeEnd cd) (R : List Char) :
    stripFences (X ++ R) = stripFences X ++ stripFences R := by
  subst hX
  exact stripFences_append_safeEnd cp.length cp le_rfl cd R hcd

theorem stripFences_ws_append {ws : List Char} (hws : ∀ c ∈ ws, isJsonWs c = true)
    (R : List Char) : stripFences (ws ++ R) = ws ++ stripFences R :=
  stripFences_append_clean R (fun c hc => isJsonWs_ne_backtick (hws c hc))

/-! ### Reassembly of parses of fence-stripped cores -/

theorem parseValue_str_assemble {body : List Char} (hsb : StrBody body) (r2 : List Char) :
    ∃ out2, parseValue 1 ('"' :: (body ++ r2)) = some (.str (String.mk out2), r2) := by
  obtain ⟨out2, g0, hg0⟩ := strBody_parse hsb r2
  refine ⟨out2, ?_⟩
  simp only [parseValue]
  rw [skipWs_cons_neg (by decide)]
  dsimp only
  rw [if_pos (by decide)]
  rw [parseStrChars_fuel g0 _ _ hg0 _ le_rfl]

theorem parseValue_true (r2 : List Char) :
    parseValue 1 ("true".toList ++ r2) = some (.bool true, r2) := by
  show parseValue 1 ('t' :: ("rue".toList ++ r2)) = _
  simp only [parseValue]
  rw [skipWs_cons_neg (by decide)]
  dsimp only
  rw [if_neg (by decide), if_pos (by decide)]
  unfold expectLit
  rw [if_pos (List.isPrefixOf_iff_prefix.mpr (List.prefix_append _ r2)), List.drop_left]

theorem parseValue_false (r2 : List Char) :
    parseValue 1 ("false".toList ++ r2) = some (.bool false, r2) := by
  show parseValue 1 ('f' :: ("alse".toList ++ r2)) = _
  simp only [parseValue]
  rw [skipWs_cons_neg (by decide)]
  dsimp only
  rw [if_neg (by decide), if_neg (by decide), if_pos (by decide)]
  unfold expectLit
  rw [if_pos (List.isPrefixOf_iff_prefix.mpr (List.prefix_append _ r2)), List.drop_left]

theorem parseValue_null (r2 : List Char) :
    parseValue 1 ("null".toList ++ r2) = some (.null, r2) := by
  show parseValue 1 ('n' :: ("ull".toList ++ r2)) = _
  simp only [parseValue]
  rw [skipWs_cons_neg (by decide)]
  dsimp only
  rw [if_neg (by decide), if_neg (by decide), if_neg (by decide), if_pos (by decide)]
  unfold expectLit
  rw [if_pos (List.isPrefixOf_iff_prefix.mpr (List.prefix_append _ r2)), List.drop_left]

theorem parseValue_objEmpty_assemble {ws2 : List Char}
    (hws2 : ∀ c ∈ ws2, isJsonWs c = true) (r2 : List Char) :
    parseValue 1 (Char.ofNat 123 :: (ws2 ++ (Char.ofNat 125 :: r2))) = some (.obj [], r2) := by
  simp only [parseValue]
  rw [skipWs_cons_neg (by decide)]
  dsimp only
  rw [if_neg (by decide), if_neg (by decide), if_neg (by decide), if_neg (by decide),
      if_pos (by decide)]
  rw [skipWs_ws_append hws2, skipWs_cons_neg (by decide)]
  dsimp only
  rw [if_pos (by decide)]

theorem parseValue_arrEmpty_assemble {ws2 : List Char}
    (hws2 : ∀ c ∈ ws2, isJsonWs c = true) (r2 : List Char) :
    parseValue 1 ('[' :: (ws2 ++ (']' :: r2))) = some (.arr [], r2) := by
  simp only [parseValue]
  rw [skipWs_cons_neg (by decide)]
  dsimp only
  rw [if_neg (by decide), if_neg (by decide), if_neg (by decide), if_neg (by decide),
      if_neg (by decide), if_pos (by decide)]
  rw [skipWs_ws_append hws2, skipWs_cons_neg (by decide)]
  dsimp only
  rw [if_pos (by decide)]

theorem parseValue_obj_assemble {ws2 A : List Char}
    (hws2 : ∀ c ∈ ws2, isJsonWs c = true) {bt : List Char} (hA : A = '"' :: bt)
    {ms2 : List (String × Json)} {r2 : List Char} {g : Nat}
    (hgM : parseMembers g (A ++ r2) = some (ms2, r2)) :
    parseValue (g + 1) (Char.ofNat 123 :: (ws2 ++ (A ++ r2))) = some (.obj ms2, r2) := by
  subst hA
  simp only [List.cons_append] at hgM ⊢
  simp only [parseValue]
  rw [skipWs_cons_neg (by decide)]
  dsimp only
  rw [if_neg (by decide), if_neg (by decide), if_neg (by decide), if_neg (by decide),
      if_pos (by decide)]
  rw [skipWs_ws_append hws2, skipWs_cons_neg (by decide)]
  dsimp only
  rw [if_neg (by decide), hgM]

theorem parseValue_arr_assemble {ws2 A : List Char}
    (hws2 : ∀ c ∈ ws2, isJsonWs c = true) {hcE : Char} {ctE : List Char}
    (hA : A = hcE :: ctE) (hnws : isJsonWs hcE = false) (hnbr : hcE ≠ ']')
    {vs2 : List Json} {r2 : List Char} {g : Nat}
    (hgE : parseElems g (A ++ r2) = some (vs2, r2)) :
    parseValue (g + 1) ('[' :: (ws2 ++ (A ++ r2))) = some (.arr vs2, r2) := by
  subst hA
  simp only [List.cons_append] at hgE ⊢
  simp only [parseValue]
  rw [skipWs_cons_neg (by decide)]
  dsimp only
  rw [if_neg (by decide), if_neg (by decide), if_neg (by decide), if_neg (by decide),
      if_neg (by decide), if_pos (by decide)]
  rw [skipWs_ws_append hws2, skipWs_cons_neg hnws]
  dsimp only
  rw [if_neg (by simp [hnbr]), hgE]

theorem parseValue_num_assemble {p : List Char} {c0 : Char} {t0 : List Char} {q : Rat}
    (hp : p = c0 :: t0) (hc0 : c0 = '-' ∨ isDigitChar c0 = true)
    (hrep : ∀ r2, headSafeL r2 → parseNumber (p ++ r2) = some (q, r2))
    (r2 : List Char) (hr2 : headSafeL r2) :
    parseValue 1 (p ++ r2) = some (.num q, r2) := by
  have hnum := hrep r2 hr2
  subst hp
  have hnws : isJsonWs c0 = false := by
    rcases hc0 with rfl | hd
    · decide
    · exact digitChar_not_ws hd
  have hne1 : c0 ≠ '"' := by
    rcases hc0 with rfl | hd
    · decide
    · exact digitChar_ne hd (by decide)
  have hne2 : c0 ≠ 't' := by
    rcases hc0 with rfl | hd
    · decide
    · exact digitChar_ne hd (by decide)
  have hne3 : c0 ≠ 'f' := by
    rcases hc0 with rfl | hd
    · decide
    · exact digitChar_ne hd (by decide)
  have hne4 : c0 ≠ 'n' := by
    rcases hc0 with rfl | hd
    · decide
    · exact digitChar_ne hd (by decide)
  have hne5 : c0 ≠ Char.ofNat 123 := by
    rcases hc0 with rfl | hd
    · decide
    · exact digitChar_ne hd (by decide)
  have hne6 : c0 ≠ '[' := by
    rcases hc0 with rfl | hd
    · decide
    · exact digitChar_ne hd (by decide)
  have hpos : (c0 == '-' || isDigitChar c0) = true := by
    rcases hc0 with rfl | hd
    · decide
    · simp [hd]
  simp only [List.cons_append] at hnum ⊢
  simp only [parseValue]
  rw [skipWs_cons_neg hnws]
  dsimp only
  rw [if_neg (by simp [hne1]), if_neg (by simp [hne2]), if_neg (by simp [hne3]),
      if_neg (by simp [hne4]), if_neg (by simp [hne5]), if_neg (by simp [hne6]),
      if_pos hpos, hnum]

theorem parseElems_assemble_comma {A wsv wse B : List Char}
    (hwsv : ∀ c ∈ wsv, isJsonWs c = true) (hwse : ∀ c ∈ wse, isJsonWs c = true)
    {v2 : Json} {vs2 : List Json} {r2 : List Char} {g : Nat}
    (hgV : parseValue g (A ++ (wsv ++ (',' :: (wse ++ B)))) = some (v2, wsv ++ (',' :: (wse ++ B))))
    (hgE : parseElems g B = some (vs2, r2)) :
    parseElems (g + 1) (A ++ (wsv ++ (',' :: (wse ++ B)))) = some (v2 :: vs2, r2) := by
  simp only [parseElems]
  rw [hgV]
  dsimp only
  rw [skipWs_ws_append hwsv, skipWs_cons_neg (by decide)]
  dsimp only
  rw [if_pos (by decide)]
  rw [parseElems_skipWs (skipWs_ws_append hwse B) g, hgE]

theorem parseElems_assemble_close {A wsv : List Char}
    (hwsv : ∀ c ∈ wsv, isJsonWs c = true) {v2 : Json} {r2 : List Char} {g : Nat}
    (hgV : parseValue g (A ++ (wsv ++ (']' :: r2))) = some (v2, wsv ++ (']' :: r2))) :
    parseElems (g + 1) (A ++ (wsv ++ (']' :: r2))) = some ([v2], r2) := by
  simp only [parseElems]
  rw [hgV]
  dsimp only
  rw [skipWs_ws_append hwsv, skipWs_cons_neg (by decide)]
  dsimp only
  rw [if_neg (by decide), if_pos (by decide)]

theorem parseMembers_assemble_comma {body ws2 ws0 A ws3 ws4 B : List Char}
    (hsb : StrBody body)
    (hws2 : ∀ c ∈ ws2, isJsonWs c = true) (hws0 : ∀ c ∈ ws0, isJsonWs c = true)
    (hws3 : ∀ c ∈ ws3, isJsonWs c = true) (hws4 : ∀ c ∈ ws4, isJsonWs c = true)
    {v2 : Json} {ms2 : List (String × Json)} {r2 : List Char} {g : Nat}
    {bt : List Char} (hB : B = '"' :: bt)
    (hgV : parseValue g (A ++ (ws3 ++ (',' :: (ws4 ++ B)))) = some (v2, ws3 ++ (',' :: (ws4 ++ B))))
    (hgM : parseMembers g B = some (ms2, r2)) :
    ∃ key2, parseMembers (g + 1)
      ('"' :: (body ++ (ws2 ++ (':' :: (ws0 ++ (A ++ (ws3 ++ (',' :: (ws4 ++ B)))))))))
      = some ((String.mk key2, v2) :: ms2, r2) := by
  obtain ⟨out2, g0, hg0⟩ :=
    strBody_parse hsb (ws2 ++ (':' :: (ws0 ++ (A ++ (ws3 ++ (',' :: (ws4 ++ B)))))))
  refine ⟨out2, ?_⟩
  simp only [parseMembers]
  rw [if_pos (by decide)]
  rw [parseStrChars_fuel g0 _ _ hg0 _ le_rfl]
  dsimp only
  rw [skipWs_ws_append hws2, skipWs_cons_neg (by decide)]
  dsimp only
  rw [if_pos (by decide)]
  rw [parseValue_skipWs (skipWs_ws_append hws0 _) g, hgV]
  dsimp only
  rw [skipWs_ws_append hws3, skipWs_cons_neg (by decide)]
  dsimp only
  rw [if_pos (by decide)]
  subst hB
  rw [skipWs_ws_append hws4, skipWs_cons_neg (by decide), hgM]

theorem parseMembers_assemble_close {body ws2 ws0 A ws3 : List Char}
    (hsb : StrBody body)
    (hws2 : ∀ c ∈ ws2, isJsonWs c = true) (hws0 : ∀ c ∈ ws0, isJsonWs c = true)
    (hws3 : ∀ c ∈ ws3, isJsonWs c = true)
    {v2 : Json} {r2 : List Char} {g : Nat}
    (hgV : parseValue g (A ++ (ws3 ++ (Char.ofNat 125 :: r2)))
      = some (v2, ws3 ++ (Char.ofNat 125 :: r2))) :
    ∃ key2, parseMembers (g + 1)
      ('"' :: (body ++ (ws2 ++ (':' :: (ws0 ++ (A ++ (ws3 ++ (Char.ofNat 125 :: r2))))))))
      = some ([(String.mk key2, v2)], r2) := by
  obtain ⟨out2, g0, hg0⟩ :=
    strBody_parse hsb (ws2 ++ (':' :: (ws0 ++ (A ++ (ws3 ++ (Char.ofNat 125 :: r2))))))
  refine ⟨out2, ?_⟩
  simp only [parseMembers]
  rw [if_pos (by decide)]
  rw [parseStrChars_fuel g0 _ _ hg0 _ le_rfl]
  dsimp only
  rw [skipWs_ws_append hws2, skipWs_cons_neg (by decide)]
  dsimp only
  rw [if_pos (by decide)]
  rw [parseValue_skipWs (skipWs_ws_append hws0 _) g, hgV]
  dsimp only
  rw [skipWs_ws_append hws3, skipWs_cons_neg (by decide)]
  dsimp only
  rw [if_neg (by decide), if_pos (by decide)]

theorem skipWs_split {X : List Char} {c : Char} {rest : List Char}
    (h : skipWs X = c :: rest) :
    ∃ ws, X = ws ++ (c :: rest) ∧ ∀ x ∈ ws, isJsonWs x = true := by
  obtain ⟨ws, h1, h2⟩ := skipWs_decomp X
  exact ⟨ws, by rw [h1, h], h2⟩

/-- Main preservation lemma: every successfully parsed value, element
list and member list occupies a core region of the input whose
fence-stripped image still parses, in front of any suitable
continuation. -/
theorem parse_strip : ∀ (f : Nat),
    (∀ cs v r, parseValue f cs = some (v, r) →
      ∃ core, skipWs cs = core ++ r ∧
        (∃ hc ct, core = hc :: ct ∧ isJsonWs hc = false ∧ jsWhitespace hc = false ∧
          hc ≠ backtick ∧ hc ≠ ']') ∧
        (∃ cp cd, core = cp ++ [cd] ∧ safeEnd cd ∧ jsWhitespace cd = false) ∧
        (∀ r2, headSafeL r2 → ∃ v2 g, parseValue g (stripFences core ++ r2) = some (v2, r2))) ∧
    (∀ cs vs r, parseElems f cs = some (vs, r) →
      ∃ core, skipWs cs = core ++ r ∧
        (∃ hc ct, core = hc :: ct ∧ isJsonWs hc = false ∧ hc ≠ backtick ∧ hc ≠ ']') ∧
        (∃ cp, core = cp ++ [']']) ∧
        (∀ r2, ∃ vs2 g, parseElems g (stripFences core ++ r2) = some (vs2, r2))) ∧
    (∀ cs ms r, parseMembers f cs = some (ms, r) →
      ∃ core, cs = core ++ r ∧ (∃ ct, core = '"' :: ct) ∧
        (∃ cp, core = cp ++ [Char.ofNat 125]) ∧
        (∀ r2, ∃ ms2 g, parseMembers g (stripFences core ++ r2) = some (ms2, r2))) := by
  intro f
  induction f with
  | zero =>
    refine ⟨?_, ?_, ?_⟩ <;> intro cs a r h <;>
      simp [parseValue, parseElems, parseMembers] at h
  | succ f ih =>
    obtain ⟨ihv, ihe, ihm⟩ := ih
    refine ⟨?_, ?_, ?_⟩
    · intro cs v r h
      unfold parseValue at h
      cases hsk : skipWs cs with
      | nil => rw [hsk] at h; exact absurd h (by simp)
      | cons c rest =>
        rw [hsk] at h
        dsimp only at h
        by_cases hq : (c == '"') = true
        · rw [if_pos hq] at h
          cases hps : parseStrChars (rest.length + 1) rest with
          | none => rw [hps] at h; exact absurd h (by simp)
          | some p =>
            rw [hps] at h
            obtain ⟨out, r1⟩ := p
            obtain ⟨bodyK, hbody, hsb⟩ := parseStrChars_strBody _ rest out r1 hps
            obtain rfl : r = r1 := by cases h; rfl
            have hc' : c = '"' := by simpa using hq
            subst hc'
            refine ⟨'"' :: bodyK, ?_, ?_, ?_, ?_⟩
            · simp [hbody]
            · exact ⟨'"', bodyK, rfl, by decide, by decide, by decide, by decide⟩
            · obtain ⟨bk, hbk⟩ := strBody_last hsb
              exact ⟨'"' :: bk, '"', by simp [hbk],
                ⟨by decide, by decide, by decide, by decide, by decide⟩, by decide⟩
            · intro r2 _
              obtain ⟨out2, hout2⟩ := parseValue_str_assemble (strBody_strip_self hsb) r2
              refine ⟨.str (String.mk out2), 1, ?_⟩
              rw [stripFences_cons_of_ne (by decide)]
              simpa using hout2
        · rw [if_neg hq] at h
          by_cases ht : (c == 't') = true
          · rw [if_pos ht] at h
            obtain ⟨hv1, hlit, hrep⟩ := expectLit_shape h
            rw [(by decide : "rue".toList = ['r', 'u', 'e'])] at hlit
            have hc' : c = 't' := by simpa using ht
            subst hc'
            refine ⟨['t', 'r', 'u', 'e'], ?_, ?_, ?_, ?_⟩
            · simp [hlit]
            · exact ⟨'t', ['r', 'u', 'e'], rfl, by decide, by decide, by decide, by decide⟩
            · exact ⟨['t', 'r', 'u'], 'e', by decide,
                ⟨by decide, by decide, by decide, by decide, by decide⟩, by decide⟩
            · intro r2 _
              refine ⟨.bool true, 1, ?_⟩
              rw [stripFences_self (by decide)]
              have h2 := parseValue_true r2
              rw [(by decide : "true".toList = ['t', 'r', 'u', 'e'])] at h2
              exact h2
          · rw [if_neg ht] at h
            by_cases hf2 : (c == 'f') = true
            · rw [if_pos hf2] at h
              obtain ⟨hv1, hlit, hrep⟩ := expectLit_shape h
              rw [(by decide : "alse".toList = ['a', 'l', 's', 'e'])] at hlit
              have hc' : c = 'f' := by simpa using hf2
              subst hc'
              refine ⟨['f', 'a', 'l', 's', 'e'], ?_, ?_, ?_, ?_⟩
              · simp [hlit]
              · exact ⟨'f', ['a', 'l', 's', 'e'], rfl, by decide, by decide, by decide,
                  by decide⟩
              · exact ⟨['f', 'a', 'l', 's'], 'e', by decide,
                  ⟨by decide, by decide, by decide, by decide, by decide⟩, by decide⟩
              · intro r2 _
                refine ⟨.bool false, 1, ?_⟩
                rw [stripFences_self (by decide)]
                have h2 := parseValue_false r2
                rw [(by decide : "false".toList = ['f', 'a', 'l', 's', 'e'])] at h2
                exact h2
            · rw [if_neg hf2] at h
              by_cases hn : (c == 'n') = true
              · rw [if_pos hn] at h
                obtain ⟨hv1, hlit, hrep⟩ := expectLit_shape h
                rw [(by decide : "ull".toList = ['u', 'l', 'l'])] at hlit
                have hc' : c = 'n' := by simpa using hn
                subst hc'
                refine ⟨['n', 'u', 'l', 'l'], ?_, ?_, ?_, ?_⟩
                · simp [hlit]
                · exact ⟨'n', ['u', 'l', 'l'], rfl, by decide, by decide, by decide,
                    by decide⟩
                · exact ⟨['n', 'u', 'l'], 'l', by decide,
                    ⟨by decide, by decide, by decide, by decide, by decide⟩, by decide⟩
                · intro r2 _
                  refine ⟨.null, 1, ?_⟩
                  rw [stripFences_self (by decide)]
                  have h2 := parseValue_null r2
                  rw [(by decide : "null".toList = ['n', 'u', 'l', 'l'])] at h2
                  exact h2
              · rw [if_neg hn] at h
                by_cases hob : (c == Char.ofNat 123) = true
                · rw [if_pos hob] at h
                  have hc' : c = Char.ofNat 123 := by simpa using hob
                  subst hc'
                  cases hsk2 : skipWs rest with
                  | nil => rw [hsk2] at h; exact absurd h (by simp)
                  | cons c2 r2 =>
                    rw [hsk2] at h
                    dsimp only at h
                    obtain ⟨ws2, hrest, hws2⟩ := skipWs_split hsk2
                    by_cases hcb : (c2 == Char.ofNat 125) = true
                    · rw [if_pos hcb] at h
                      have hc2' : c2 = Char.ofNat 125 := by simpa using hcb
                      subst hc2'
                      obtain rfl : r = r2 := by cases h; rfl
                      refine ⟨Char.ofNat 123 :: (ws2 ++ [Char.ofNat 125]), ?_, ?_, ?_, ?_⟩
                      · simp [hrest]
                      · exact ⟨_, _, rfl, by decide, by decide, by decide, by decide⟩
                      · exact ⟨Char.ofNat 123 :: ws2, Char.ofNat 125, by simp,
                          ⟨by decide, by decide, by decide, by decide, by decide⟩, by decide⟩
                      · intro r2' _
                        refine ⟨.obj [], 1, ?_⟩
                        rw [stripFences_cons_of_ne (by decide),
                            stripFences_ws_append hws2, stripFences_single]
                        have := parseValue_objEmpty_assemble hws2 r2'
                        simpa [List.append_assoc] using this
                    · rw [if_neg hcb] at h
                      cases hpm : parseMembers f (c2 :: r2) with
                      | none => rw [hpm] at h; exact absurd h (by simp)
                      | some p =>
                        rw [hpm] at h
                        obtain ⟨ms', r3⟩ := p
                        obtain ⟨coreM, hMeq, ⟨ctM, hMh⟩, ⟨cpM, hMl⟩, hMrep⟩ :=
                          ihm (c2 :: r2) ms' r3 hpm
                        obtain ⟨rfl, rfl⟩ : v = .obj ms' ∧ r = r3 := by
                          cases h; exact ⟨rfl, rfl⟩
                        refine ⟨Char.ofNat 123 :: (ws2 ++ coreM), ?_, ?_, ?_, ?_⟩
                        · simp [hrest, hMeq]
                        · exact ⟨_, _, rfl, by decide, by decide, by decide, by decide⟩
                        · refine ⟨Char.ofNat 123 :: (ws2 ++ cpM), Char.ofNat 125, ?_,
                            ⟨by decide, by decide, by decide, by decide, by decide⟩, by decide⟩
                          rw [hMl]; simp
                        · intro r2' _
                          obtain ⟨ms2, gM, hgM⟩ := hMrep r2'
                          have hMh' : stripFences coreM = '"' :: stripFences ctM := by
                            rw [hMh]; exact stripFences_cons_of_ne (by decide)
                          have hgM' := (parse_suff gM).2.2 _ _ hgM
                            (2 * (stripFences coreM ++ r2').length + 2) le_rfl
                          have hasm := parseValue_obj_assemble hws2 hMh' hgM'
                          refine ⟨.obj ms2, 2 * (stripFences coreM ++ r2').length + 2 + 1, ?_⟩
                          rw [stripFences_cons_of_ne (by decide), stripFences_ws_append hws2]
                          simpa [List.append_assoc] using hasm
                · rw [if_neg hob] at h
                  by_cases har : (c == '[') = true
                  · rw [if_pos har] at h
                    have hc' : c = '[' := by simpa using har
                    subst hc'
                    cases hsk2 : skipWs rest with
                    | nil => rw [hsk2] at h; exact absurd h (by simp)
                    | cons c2 r2 =>
                      rw [hsk2] at h
                      dsimp only at h
                      obtain ⟨ws2, hrest, hws2⟩ := skipWs_split hsk2
                      by_cases hcb : (c2 == ']') = true
                      · rw [if_pos hcb] at h
                        have hc2' : c2 = ']' := by simpa using hcb
                        subst hc2'
                        obtain rfl : r = r2 := by cases h; rfl
                        refine ⟨'[' :: (ws2 ++ [']']), ?_, ?_, ?_, ?_⟩
                        · simp [hrest]
                        · exact ⟨_, _, rfl, by decide, by decide, by decide, by decide⟩
                        · exact ⟨'[' :: ws2, ']', by simp,
                            ⟨by decide, by decide, by decide, by decide, by decide⟩, by decide⟩
                        · intro r2' _
                          refine ⟨.arr [], 1, ?_⟩
                          rw [stripFences_cons_of_ne (by decide),
                              stripFences_ws_append hws2, stripFences_single]
                          have := parseValue_arrEmpty_assemble hws2 r2'
                          simpa [List.append_assoc] using this
                      · rw [if_neg hcb] at h
                        cases hpe : parseElems f (c2 :: r2) with
                        | none => rw [hpe] at h; exact absurd h (by simp)
                        | some p =>
                          rw [hpe] at h
                          obtain ⟨vs', r3⟩ := p
                          obtain ⟨coreE, hEeq, ⟨hcE, ctE, hEh, hEnws, hEnbt, hEnbr⟩,
                            ⟨cpE, hEl⟩, hErep⟩ := ihe (c2 :: r2) vs' r3 hpe
                          obtain ⟨wsE, hr2d, hwsE⟩ : ∃ ws, c2 :: r2 = ws ++ (coreE ++ r3) ∧
                              ∀ x ∈ ws, isJsonWs x = true := by
                            obtain ⟨ws, h1, h2⟩ := skipWs_decomp (c2 :: r2)
                            exact ⟨ws, by rw [← hEeq]; exact h1, h2⟩
                          obtain ⟨rfl, rfl⟩ : v = .arr vs' ∧ r = r3 := by
                            cases h; exact ⟨rfl, rfl⟩
                          have hwsT : ∀ x ∈ ws2 ++ wsE, isJsonWs x = true := by
                            intro x hx
                            rcases List.mem_append.mp hx with hx | hx
                            · exact hws2 x hx
                            · exact hwsE x hx
                          refine ⟨'[' :: ((ws2 ++ wsE) ++ coreE), ?_, ?_, ?_, ?_⟩
                          · simp [hrest, hr2d]
                          · exact ⟨_, _, rfl, by decide, by decide, by decide, by decide⟩
                          · refine ⟨'[' :: ((ws2 ++ wsE) ++ cpE), ']', ?_,
                              ⟨by decide, by decide, by decide, by decide, by decide⟩,
                              by decide⟩
                            rw [hEl]; simp
                          · intro r2' _
                            obtain ⟨vs2, gE, hgE⟩ := hErep r2'
                            have hEh' : stripFences coreE = hcE :: stripFences ctE := by
                              rw [hEh]; exact stripFences_cons_of_ne hEnbt
                            have hgE' := (parse_suff gE).2.1 _ _ hgE
                              (2 * (stripFences coreE ++ r2').length + 2) le_rfl
                            have hasm := parseValue_arr_assemble hwsT hEh' hEnws hEnbr hgE'
                            refine ⟨.arr vs2, 2 * (stripFences coreE ++ r2').length + 2 + 1, ?_⟩
                            rw [stripFences_cons_of_ne (by decide),
                                stripFences_ws_append hwsT]
                            simpa [List.append_assoc] using hasm
                  · rw [if_neg har] at h
                    by_cases hnum : (c == '-' || isDigitChar c) = true
                    · rw [if_pos hnum] at h
                      cases hpn : parseNumber (c :: rest) with
                      | none => rw [hpn] at h; exact absurd h (by simp)
                      | some p =>
                        rw [hpn] at h
                        obtain ⟨q, r1⟩ := p
                        obtain ⟨p, hcse, hall, ⟨c0, t0, hp0, hc0⟩, hrep⟩ := parseNumber_shape hpn
                        obtain rfl : r = r1 := by cases h; rfl
                        have hnws : isJsonWs c0 = false := by
                          rcases hc0 with rfl | hd
                          · decide
                          · exact digitChar_not_ws hd
                        have hnjws : jsWhitespace c0 = false := by
                          rcases hc0 with rfl | hd
                          · decide
                          · exact digitChar_not_jsws hd
                        have hnbt : c0 ≠ backtick := by
                          rcases hc0 with rfl | hd
                          · decide
                          · exact digitChar_ne hd (by decide)
                        have hnbr : c0 ≠ ']' := by
                          rcases hc0 with rfl | hd
                          · decide
                          · exact digitChar_ne hd (by decide)
                        have hpne : p ≠ [] := by rw [hp0]; simp
                        refine ⟨p, ?_, ⟨c0, t0, hp0, hnws, hnjws, hnbt, hnbr⟩, ?_, ?_⟩
                        · exact hcse
                        · refine ⟨p.dropLast, p.getLast hpne,
                            (List.dropLast_append_getLast hpne).symm, ?_, ?_⟩
                          · exact (numTailChar_facts (hall _ (List.getLast_mem hpne))).1
                          · exact (numTailChar_facts (hall _ (List.getLast_mem hpne))).2.2
                        · intro r2 hr2
                          refine ⟨.num q, 1, ?_⟩
                          rw [stripFences_self
                            (fun x hx => (numTailChar_facts (hall x hx)).2.1)]
                          exact parseValue_num_assemble hp0 hc0 hrep r2 hr2
                    · rw [if_neg hnum] at h
                      exact absurd h (by simp)
    · intro cs vs r h
      unfold parseElems at h
      cases hpv : parseValue f cs with
      | none => rw [hpv] at h; exact absurd h (by simp)
      | some p =>
        rw [hpv] at h
        dsimp only at h
        obtain ⟨v, rv⟩ := p
        obtain ⟨coreV, hVeq, ⟨hcV, ctV, hVh, hVnws, hVnjws, hVnbt, hVnbr⟩,
          ⟨cpV, cdV, hVl, hVsafe, hVjws⟩, hVrep⟩ := ihv cs v rv hpv
        cases hsk : skipWs rv with
        | nil => rw [hsk] at h; exact absurd h (by simp)
        | cons c r2 =>
          rw [hsk] at h
          dsimp only at h
          obtain ⟨wsv, hrv, hwsv⟩ := skipWs_split hsk
          by_cases hcm : (c == ',') = true
          · rw [if_pos hcm] at h
            have hc' : c = ',' := by simpa using hcm
            subst hc'
            cases hpe : parseElems f r2 with
            | none => rw [hpe] at h; exact absurd h (by simp)
            | some p2 =>
              rw [hpe] at h
              obtain ⟨vs', r3⟩ := p2
              obtain ⟨coreE', hEeq, ⟨hcE, ctE, hEh, hEnws, hEnbt, hEnbr⟩, ⟨cpE, hEl⟩, hErep⟩ :=
                ihe r2 vs' r3 hpe
              obtain ⟨wse, hr2d, hwse⟩ : ∃ ws, r2 = ws ++ (coreE' ++ r3) ∧
                  ∀ x ∈ ws, isJsonWs x = true := by
                obtain ⟨ws, h1, h2⟩ := skipWs_decomp r2
                exact ⟨ws, by rw [h1, hEeq], h2⟩
              obtain ⟨rfl, rfl⟩ : vs = v :: vs' ∧ r = r3 := by cases h; exact ⟨rfl, rfl⟩
              refine ⟨coreV ++ (wsv ++ (',' :: (wse ++ coreE'))), ?_, ?_, ?_, ?_⟩
              · rw [hVeq, hrv, hr2d]; simp
              · refine ⟨hcV, ctV ++ (wsv ++ (',' :: (wse ++ coreE'))), ?_, hVnws, hVnbt,
                  hVnbr⟩
                simp [hVh]
              · refine ⟨coreV ++ (wsv ++ (',' :: (wse ++ cpE))), ?_⟩
                rw [hEl]; simp
              · intro r2'
                obtain ⟨vs2, gE, hgE⟩ := hErep r2'
                have hd1 : headSafeL (wsv ++ (',' :: (wse ++ (stripFences coreE' ++ r2')))) :=
                  headSafeL_ws_append hwsv
                    (headSafeL_cons (by decide) (by decide) (by decide) (by decide)
                      (by decide) _)
                obtain ⟨v2, gV, hgV⟩ := hVrep _ hd1
                have hgV' := (parse_suff gV).1 _ _ hgV
                  (2 * (stripFences coreV ++
                    (wsv ++ (',' :: (wse ++ (stripFences coreE' ++ r2'))))).length + 2)
                  (by simp only [List.length_append, List.length_cons]; omega)
                have hgE' := (parse_suff gE).2.1 _ _ hgE
                  (2 * (stripFences coreV ++
                    (wsv ++ (',' :: (wse ++ (stripFences coreE' ++ r2'))))).length + 2)
                  (by simp only [List.length_append, List.length_cons]; omega)
                have hasm := parseElems_assemble_comma hwsv hwse hgV' hgE'
                refine ⟨v2 :: vs2, 2 * (stripFences coreV ++
                  (wsv ++ (',' :: (wse ++ (stripFences coreE' ++ r2'))))).length + 2 + 1, ?_⟩
                rw [stripFences_split hVl hVsafe, stripFences_ws_append hwsv,
                    stripFences_cons_of_ne (by decide), stripFences_ws_append hwse]
                simpa [List.append_assoc] using hasm
          · rw [if_neg hcm] at h
            by_cases hcb : (c == ']') = true
            · rw [if_pos hcb] at h
              have hc' : c = ']' := by simpa using hcb
              subst hc'
              obtain ⟨rfl, rfl⟩ : vs = [v] ∧ r = r2 := by cases h; exact ⟨rfl, rfl⟩
              refine ⟨coreV ++ (wsv ++ [']']), ?_, ?_, ?_, ?_⟩
              · rw [hVeq, hrv]; simp
              · refine ⟨hcV, ctV ++ (wsv ++ [']']), ?_, hVnws, hVnbt, hVnbr⟩
                simp [hVh]
              · exact ⟨coreV ++ wsv, by simp⟩
              · intro r2'
                have hd1 : headSafeL (wsv ++ (']' :: r2')) :=
                  headSafeL_ws_append hwsv
                    (headSafeL_cons (by decide) (by decide) (by decide) (by decide)
                      (by decide) _)
                obtain ⟨v2, gV, hgV⟩ := hVrep _ hd1
                have hgV' := (parse_suff gV).1 _ _ hgV
                  (2 * (stripFences coreV ++ (wsv ++ (']' :: r2'))).length + 2)
                  (by simp only [List.length_append, List.length_cons]; omega)
                have hasm := parseElems_assemble_close hwsv hgV'
                refine ⟨[v2], 2 * (stripFences coreV ++ (wsv ++ (']' :: r2'))).length
                  + 2 + 1, ?_⟩
                rw [stripFences_split hVl hVsafe, stripFences_ws_append hwsv,
                    stripFences_single]
                simpa [List.append_assoc] using hasm
            · rw [if_neg hcb] at h
              exact absurd h (by simp)
    · intro cs ms r h
      unfold parseMembers at h
      cases cs with
      | nil => exact absurd h (by simp)
      | cons c rest =>
        dsimp only at h
        by_cases hq : (c == '"') = true
        · rw [if_pos hq] at h
          have hc' : c = '"' := by simpa using hq
          subst hc'
          cases hps : parseStrChars (rest.length + 1) rest with
          | none => rw [hps] at h; exact absurd h (by simp)
          | some p =>
            rw [hps] at h
            dsimp only at h
            obtain ⟨key, r1⟩ := p
            obtain ⟨bodyK, hbody, hsb⟩ := parseStrChars_strBody _ rest key r1 hps
            obtain ⟨bk, hbk⟩ := strBody_last hsb
            cases hsk : skipWs r1 with
            | nil => rw [hsk] at h; exact absurd h (by simp)
            | cons c2 r2 =>
              rw [hsk] at h
              dsimp only at h
              obtain ⟨ws2, hr1d, hws2⟩ := skipWs_split hsk
              by_cases hcol : (c2 == ':') = true
              · rw [if_pos hcol] at h
                have hc2' : c2 = ':' := by simpa using hcol
                subst hc2'
                cases hpv : parseValue f r2 with
                | none => rw [hpv] at h; exact absurd h (by simp)
                | some p2 =>
                  rw [hpv] at h
                  dsimp only at h
                  obtain ⟨v, r3⟩ := p2
                  obtain ⟨coreV, hVeq, ⟨hcV, ctV, hVh, hVnws, hVnjws, hVnbt, hVnbr⟩,
                    ⟨cpV, cdV, hVl, hVsafe, hVjws⟩, hVrep⟩ := ihv r2 v r3 hpv
                  obtain ⟨ws0, hr2d, hws0⟩ : ∃ ws, r2 = ws ++ (coreV ++ r3) ∧
                      ∀ x ∈ ws, isJsonWs x = true := by
                    obtain ⟨ws, h1, h2⟩ := skipWs_decomp r2
                    exact ⟨ws, by rw [h1, hVeq], h2⟩
                  cases hsk2 : skipWs r3 with
                  | nil => rw [hsk2] at h; exact absurd h (by simp)
                  | cons c3 r4 =>
                    rw [hsk2] at h
                    dsimp only at h
                    obtain ⟨ws3, hr3d, hws3⟩ := skipWs_split hsk2
                    by_cases hcm : (c3 == ',') = true
                    · rw [if_pos hcm] at h
                      have hc3' : c3 = ',' := by simpa using hcm
                      subst hc3'
                      cases hpm : parseMembers f (skipWs r4) with
                      | none => rw [hpm] at h; exact absurd h (by simp)
                      | some p3 =>
                        rw [hpm] at h
                        obtain ⟨ms', r5⟩ := p3
                        obtain ⟨coreM', hMeq, ⟨ctM, hMh⟩, ⟨cpM, hMl⟩, hMrep⟩ :=
                          ihm (skipWs r4) ms' r5 hpm
                        obtain ⟨ws4, hr4d, hws4⟩ : ∃ ws, r4 = ws ++ (coreM' ++ r5) ∧
                            ∀ x ∈ ws, isJsonWs x = true := by
                          obtain ⟨ws, h1, h2⟩ := skipWs_decomp r4
                          exact ⟨ws, by rw [h1, hMeq], h2⟩
                        obtain ⟨rfl, rfl⟩ : ms = (String.mk key, v) :: ms' ∧ r = r5 := by
                          cases h; exact ⟨rfl, rfl⟩
                        refine ⟨'"' :: (bodyK ++ (ws2 ++ (':' :: (ws0 ++ (coreV ++
                          (ws3 ++ (',' :: (ws4 ++ coreM')))))))), ?_, ?_, ?_, ?_⟩
                        · rw [hbody, hr1d, hr2d, hr3d, hr4d]; simp
                        · exact ⟨_, rfl⟩
                        · refine ⟨'"' :: (bodyK ++ (ws2 ++ (':' :: (ws0 ++ (coreV ++
                            (ws3 ++ (',' :: (ws4 ++ cpM)))))))), ?_⟩
                          rw [hMl]; simp
                        · intro r2'
                          obtain ⟨ms2, gM, hgM⟩ := hMrep r2'
                          have hMh' : stripFences coreM' = '"' :: stripFences ctM := by
                            rw [hMh]; exact stripFences_cons_of_ne (by decide)
                          have hd1 : headSafeL
                              (ws3 ++ (',' :: (ws4 ++ (stripFences coreM' ++ r2')))) :=
                            headSafeL_ws_append hws3
                              (headSafeL_cons (by decide) (by decide) (by decide)
                                (by decide) (by decide) _)
                          obtain ⟨v2, gV, hgV⟩ := hVrep _ hd1
                          have hgV' := (parse_suff gV).1 _ _ hgV
                            (2 * (stripFences coreV ++ (ws3 ++ (',' :: (ws4 ++
                              (stripFences coreM' ++ r2'))))).length + 2)
                            (by simp only [List.length_append, List.length_cons]; omega)
                          have hgM' := (parse_suff gM).2.2 _ _ hgM
                            (2 * (stripFences coreV ++ (ws3 ++ (',' :: (ws4 ++
                              (stripFences coreM' ++ r2'))))).length + 2)
                            (by simp only [List.length_append, List.length_cons]; omega)
                          obtain ⟨key2, hasm⟩ := parseMembers_assemble_comma
                            (strBody_strip_self hsb) hws2 hws0 hws3 hws4
                            (by simp [hMh'] :
                              stripFences coreM' ++ r2' = '"' :: (stripFences ctM ++ r2'))
                            hgV' hgM'
                          refine ⟨(String.mk key2, v2) :: ms2,
                            2 * (stripFences coreV ++ (ws3 ++ (',' :: (ws4 ++
                              (stripFences coreM' ++ r2'))))).length + 2 + 1, ?_⟩
                          rw [stripFences_cons_of_ne (by decide),
                              stripFences_split hbk
                                ⟨by decide, by decide, by decide, by decide, by decide⟩,
                              stripFences_ws_append hws2,
                              stripFences_cons_of_ne (by decide),
                              stripFences_ws_append hws0,
                              stripFences_split hVl hVsafe,
                              stripFences_ws_append hws3,
                              stripFences_cons_of_ne (by decide),
                              stripFences_ws_append hws4]
                          simpa [List.append_assoc] using hasm
                    · rw [if_neg hcm] at h
                      by_cases hcb : (c3 == Char.ofNat 125) = true
                      · rw [if_pos hcb] at h
                        have hc3' : c3 = Char.ofNat 125 := by simpa using hcb
                        subst hc3'
                        obtain ⟨rfl, rfl⟩ : ms = [(String.mk key, v)] ∧ r = r4 := by
                          cases h; exact ⟨rfl, rfl⟩
                        refine ⟨'"' :: (bodyK ++ (ws2 ++ (':' :: (ws0 ++ (coreV ++
                          (ws3 ++ [Char.ofNat 125])))))), ?_, ?_, ?_, ?_⟩
                        · rw [hbody, hr1d, hr2d, hr3d]; simp
                        · exact ⟨_, rfl⟩
                        · refine ⟨'"' :: (bodyK ++ (ws2 ++ (':' :: (ws0 ++ (coreV ++
                            ws3))))), ?_⟩
                          simp
                        · intro r2'
                          have hd1 : headSafeL (ws3 ++ (Char.ofNat 125 :: r2')) :=
                            headSafeL_ws_append hws3
                              (headSafeL_cons (by decide) (by decide) (by decide)
                                (by decide) (by decide) _)
                          obtain ⟨v2, gV, hgV⟩ := hVrep _ hd1
                          have hgV' := (parse_suff gV).1 _ _ hgV
                            (2 * (stripFences coreV ++
                              (ws3 ++ (Char.ofNat 125 :: r2'))).length + 2)
                            (by simp only [List.length_append, List.length_cons]; omega)
                          obtain ⟨key2, hasm⟩ := parseMembers_assemble_close
                            (strBody_strip_self hsb) hws2 hws0 hws3 hgV'
                          refine ⟨[(String.mk key2, v2)],
                            2 * (stripFences coreV ++
                              (ws3 ++ (Char.ofNat 125 :: r2'))).length + 2 + 1, ?_⟩
                          rw [stripFences_cons_of_ne (by decide),
                              stripFences_split hbk
                                ⟨by decide, by decide, by decide, by decide, by decide⟩,
                              stripFences_ws_append hws2,
                              stripFences_cons_of_ne (by decide),
                              stripFences_ws_append hws0,
                              stripFences_split hVl hVsafe,
                              stripFences_ws_append hws3,
                              stripFences_single]
                          simpa [List.append_assoc] using hasm
                      · rw [if_neg hcb] at h
                        exact absurd h (by simp)
              · rw [if_neg hcol] at h
                exact absurd h (by simp)
        · rw [if_neg hq] at h
          exact absurd h (by simp)

/-- Top-level preservation: if the raw AI text parses as JSON, then so
does its fence-stripped and trimmed form.  The failure branch of the
response parser is therefore never entered on account of the global
stripping when the original response is valid JSON. -/
theorem parseJsonText_strip {s : String} (h : (parseJsonText s).isSome) :
    (parseJsonText (cleanAiText s)).isSome := by
  unfold parseJsonText at h
  cases hpv : parseValue (2 * s.toList.length + 2) s.toList with
  | none => rw [hpv] at h; exact absurd h (by simp)
  | some p =>
    rw [hpv] at h
    obtain ⟨v, rest⟩ := p
    dsimp only at h
    by_cases hskr : skipWs rest = []
    · obtain ⟨core, hceq, ⟨hc, ct, hch, hcnws, hcnjws, hcnbt, hcnbr⟩,
        ⟨cp, cd, hcl, hcsafe, hcjws⟩, hrep⟩ :=
        (parse_strip _).1 s.toList v rest hpv
      obtain ⟨ws0, hs0, hws0⟩ := skipWs_decomp s.toList
      rw [hceq] at hs0
      have hrestws : ∀ x ∈ rest, isJsonWs x = true := by
        simpa [skipWs, List.dropWhile_eq_nil_iff] using hskr
      have hstrip : stripFences s.toList = ws0 ++ (stripFences core ++ rest) := by
        rw [hs0, stripFences_ws_append hws0, stripFences_split hcl hcsafe,
            stripFences_self (fun x hx => isJsonWs_ne_backtick (hrestws x hx))]
      have hcore' : stripFences core = hc :: stripFences ct := by
        rw [hch]; exact stripFences_cons_of_ne hcnbt
      have hcoreLast : stripFences core = stripFences cp ++ [cd] := by
        rw [hcl]
        exact stripFences_append_last cp.length cp le_rfl cd hcsafe.1 hcsafe.2.2.2.2
      have hfront : (stripFences core ++ rest).dropWhile jsWhitespace
          = stripFences core ++ rest := by
        conv_lhs => rw [hcore', List.cons_append]
        rw [List.dropWhile_cons, if_neg (by simp [hcnjws])]
        rw [hcore', List.cons_append]
      have hback : ((stripFences core ++ rest).reverse.dropWhile jsWhitespace).reverse
          = stripFences core := by
        rw [List.reverse_append]
        rw [List.dropWhile_append_of_pos
          (fun x hx => isJsonWs_jsws (hrestws _ (List.mem_reverse.mp hx)))]
        rw [hcoreLast, List.reverse_append]
        simp only [List.reverse_singleton, List.singleton_append]
        rw [List.dropWhile_cons, if_neg (by simp [hcjws])]
        rw [List.reverse_cons, List.reverse_reverse]
      have hclean : (cleanAiText s).toList = stripFences core := by
        have h1 : (cleanAiText s).toList
            = (((stripFences s.toList).dropWhile jsWhitespace).reverse.dropWhile
                jsWhitespace).reverse := rfl
        rw [h1, hstrip,
            List.dropWhile_append_of_pos (fun x hx => isJsonWs_jsws (hws0 x hx)),
            hfront]
        exact hback
      obtain ⟨v2, g, hg⟩ := hrep [] trivial
      rw [List.append_nil] at hg
      have hg' := (parse_suff g).1 _ _ hg (2 * (stripFences core).length + 2) (by omega)
      unfold parseJsonText
      rw [hclean, hg']
      simp [skipWs]
    · rw [if_neg hskr] at h
      exact absurd h (by simp)

/-- Claim C10, counterexample: the claimed consequence cannot occur.  No
AI response text that is valid JSON and contains a triple-backtick
marker is taken into the parse-failure branch by the global stripping:
removing every occurrence of the fence substrings from a parseable text
always leaves a parseable text, because in valid JSON the deleted
characters can only be plain string-literal content. -/
theorem claim_C10_counterexample : ¬ c10Property := by
  rintro ⟨s, hsome, _, _, hnone⟩
  have h2 := parseJsonText_strip hsome
  rw [hnone] at h2
  exact absurd h2 (by simp)

/-- Claim C10, amended: the stripping is indeed a global replacement and
it does corrupt responses whose string values contain triple backticks —
but silently.  For every response that parses as JSON, the stripped and
trimmed text still parses (the failure branch is never entered on this
account); and there is a concrete valid-JSON response containing a
fence marker inside a string value whose stripped form parses to a
different value than the original. -/
theorem claim_C10_amended :
    (∀ s : String, (parseJsonText s).isSome → (parseJsonText (cleanAiText s)).isSome) ∧
    (∃ s : String, (∃ pre post, s.toList = pre ++ fencePlain ++ post) ∧
      cleanAiText s ≠ s ∧
      parseJsonText s ≠ none ∧ parseJsonText (cleanAiText s) ≠ none ∧
      parseJsonText (cleanAiText s) ≠ parseJsonText s) := by
  refine ⟨fun s hs => parseJsonText_strip hs, ?_⟩
  refine ⟨"\x7b\"a\":\"x```y\"\x7d",
    ⟨"\x7b\"a\":\"x".toList, "y\"\x7d".toList, by decide⟩, ?_, ?_, ?_, ?_⟩
  · decide
  · decide
  · decide
  · decide

end RepoInsight
